import Mathlib

/-!
# TuxWrangler — verification of the core against its specification

Shallow embedding of the core of the `tuxwrangler` tool
(`src/tuxwrangler/src/config/src/*.rs`) in Lean 4, together with theorems
settling the specification claims about:

* the version matcher (`version.rs`: `split_version`, `version_match`, `find_tag`);
* the image-reference helpers (`docker.rs`: `Docker::registry`, `Docker::tag`);
* the lock builder (`update.rs`: `base_configs`, `individual_builds`);
* the GitHub client cache (`github.rs`: `Github::tags_inner`, `Github::tags`);
* the container command runner (`docker_run.rs`: `Docker::run_command`);
* the build-plan synthesizer (`docker_file.rs`: `installation_layers`,
  `create_dockerfile`, `create_dockerfile_for`).

External collaborators (the Docker daemon, the handlebars template engine and
the GitHub HTTP API) are passed in as function parameters; everything else is a
direct translation of the Rust source.
-/

namespace TuxWrangler

/-! ## `version.rs` — version splitting and matching

`split_version` in the source is

```rust
let re = Regex::new(r#"[^\w^\*]*([\w\*]*)"#).expect("regex");
re.captures_iter(version)
    .map(|c| c.get(1).map(|m| m.as_str().to_string()).unwrap_or_default())
    .collect()
```

The character class `[^\w^\*]` is the negation of {word characters, `^`, `*`};
the capture group `([\w\*]*)` matches a (possibly empty) run of word
characters and `*`.  A literal `^` belongs to neither class.  We embed the
`regex` crate's `captures_iter` semantics exactly: at each position the
leftmost match greedily consumes a separator run and then a group run; an
empty match advances the scan by one character and is skipped (not yielded)
iff it starts exactly where the previous match ended.  The scan starts with
`last_match = None`, so an empty match at position 0 *is* yielded.

Inputs relevant to the claims are ASCII, where Rust's Unicode-aware `\w`
agrees with `Char.isAlphanum || c = '_'`.
-/

/-- Rust regex `\w` on ASCII input: letters, digits, underscore. -/
def isWordChar (c : Char) : Bool :=
  c.isAlphanum || c = '_'

/-- Membership in the capture class `[\w\*]`. -/
def isGroupChar (c : Char) : Bool :=
  isWordChar c || c = '*'

/-- Membership in the separator class `[^\w^\*]` (note: `^` is excluded). -/
def isSepChar (c : Char) : Bool :=
  !isWordChar c && c ≠ '^' && c ≠ '*'

/-- One `captures_iter` scan step with explicit fuel.  `flag` is true iff the
previous match ended exactly at the current position (the `regex` crate skips
an empty match in that situation).  At each position the leftmost match
greedily consumes the maximal separator run and then the maximal group run;
the match is non-empty exactly when the head character is in one of the two
classes, and the capture (the token) is the group run.  When the head is in
neither class (a literal `^`) the regex matches the empty string: the scan
advances one character and yields `""` unless the previous match ended here.
Fuel `l.length + 1` always suffices: every step consumes at least one
character, except the final step on `[]`. -/
def splitVersionAux : Nat → List Char → Bool → List String
  | 0, _, _ => []
  | _ + 1, [], flag => if flag then [] else [""]
  | fuel + 1, c :: cs, flag =>
    if isSepChar c || isGroupChar c then
      let rest1 := (c :: cs).dropWhile isSepChar
      (rest1.takeWhile isGroupChar).asString
        :: splitVersionAux fuel (rest1.dropWhile isGroupChar) true
    else
      if flag then splitVersionAux fuel cs false
      else "" :: splitVersionAux fuel cs false

/-- `split_version` from `version.rs`. -/
def split_version (version : String) : List String :=
  splitVersionAux (version.data.length + 1) version.data false

/-- `version_match` from `version.rs`: every token of `target` is `*` or equals
the token of `source` at the same index, and `source` has at least as many
tokens. -/
def version_match (target source : String) : Bool :=
  let target_versions := split_version target
  let source_versions := split_version source
  if source_versions.length < target_versions.length then false
  else target_versions.enum.all fun iv =>
    iv.2 = "*" || source_versions.getD iv.1 "" = iv.2

/-- `find_tag` from `version.rs`. -/
def find_tag (target : String) (tags : List String) : Except String String :=
  if target = "latest" then
    match tags.head? with
    | some t => .ok t
    | none => .error "There were no tags found even though 'latest' version was requested."
  else
    match tags.find? (fun tag => version_match target tag) with
    | some t => .ok t
    | none => .error ("No matching tags for " ++ target)

/-- The maximal runs of `[\w\*]` characters of a string, in order.  This is
the specification-side description of `split_version`'s tokens ("tokenizes
along the regex class `[\w*]+`"). -/
def wordRuns : List Char → List String
  | [] => []
  | c :: cs =>
    if isGroupChar c then
      ((c :: cs).takeWhile isGroupChar).asString :: wordRuns ((c :: cs).dropWhile isGroupChar)
    else wordRuns cs
termination_by l => l.length
decreasing_by
  · simp only [List.dropWhile]
    have h : ∀ l : List Char, (l.dropWhile isGroupChar).length ≤ l.length := by
      intro l
      induction l with
      | nil => simp [List.dropWhile]
      | cons d ds ih =>
        simp only [List.dropWhile]
        split
        · exact Nat.le_succ_of_le ih
        · simp
    have h2 := h cs
    split
    · simp only [List.length_cons]
      omega
    · simp_all
  · simp

/-! ## Generic helpers

Rust `HashMap`s and `HashSet`s are modeled as association lists / lists.
`assocFind` models `HashMap::get`, `assocInsert` models `HashMap::insert`
(replacing the value when the key is present).  Iteration order of a Rust
`HashMap` is unspecified; the association-list order is a fixed
determinization of it (the spec notes this instability in §9, and no claim
below depends on that order).
-/

/-- `HashMap::get` on an association list. -/
def assocFind {κ ν : Type} [DecidableEq κ] (l : List (κ × ν)) (k : κ) : Option ν :=
  (l.find? (fun e => e.1 = k)).map (fun e => e.2)

/-- `HashMap::insert` on an association list. -/
def assocInsert {κ ν : Type} [DecidableEq κ] (l : List (κ × ν)) (k : κ) (v : ν) :
    List (κ × ν) :=
  if (l.find? (fun e => e.1 = k)).isSome then
    l.map (fun e => if e.1 = k then (k, v) else e)
  else l ++ [(k, v)]

/-- A Rust `for` loop whose body can fail with `?`: fold the items from the
left, stopping at the first error. -/
def foldLoopE {σ α : Type} (f : σ → α → Except String σ) : σ → List α → Except String σ
  | s, [] => .ok s
  | s, x :: xs =>
    match f s x with
    | .error e => .error e
    | .ok s' => foldLoopE f s' xs

/-- Rust `str::to_lowercase` on ASCII input: lowercase every character.
(Lean's own `String.toLower` is defined by well-founded recursion on byte
positions and does not reduce definitionally, so we map over the character
list instead.) -/
def toLowerStr (s : String) : String :=
  (s.data.map Char.toLower).asString

/-- Rust `collect::<Result<Vec<_>, _>>`: the list of values when every entry
is `Ok`, else the first error. -/
def collectE {α : Type} : List (Except String α) → Except String (List α)
  | [] => .ok []
  | e :: es =>
    match e with
    | .error err => .error err
    | .ok a =>
      match collectE es with
      | .error err => .error err
      | .ok rest => .ok (a :: rest)

/-- Rust `iter().map(f).collect::<Result<Vec<_>, _>>`. -/
def mapCollectE {α β : Type} (f : α → Except String β) : List α → Except String (List β)
  | [] => .ok []
  | x :: xs =>
    match f x with
    | .error e => .error e
    | .ok b =>
      match mapCollectE f xs with
      | .error e => .error e
      | .ok rest => .ok (b :: rest)

/-! ## `docker.rs` — image-reference helpers

```rust
pub(crate) fn registry(image: &str) -> String {
    image.split(":").next().expect("The image has a registry").to_string()
}
pub(crate) fn tag(image: &str) -> Option<String> {
    image.split(":").nth(1).map(|s| s.to_string())
}
```

Rust's `str::split(":")` splits on every occurrence of `:` and keeps empty
pieces; it always yields at least one piece.
-/

/-- Rust `str::split(":")` over the character list. -/
def splitColon : List Char → List (List Char)
  | [] => [[]]
  | c :: cs =>
    if c = ':' then [] :: splitColon cs
    else
      match splitColon cs with
      | t :: ts => (c :: t) :: ts
      | [] => [[c]]

namespace Docker

/-- `Docker::registry`: the first `:`-separated piece of the image reference. -/
def registry (image : String) : String :=
  ((splitColon image.data).headD []).asString

/-- `Docker::tag`: the second `:`-separated piece, when present. -/
def tag (image : String) : Option String :=
  ((splitColon image.data).get? 1).map List.asString

end Docker

/-! ## Data model (`lock.rs`, `config.rs`)

Direct translations of the serde types.  `Vec` becomes `List`,
`HashMap<String, _>` becomes an association list, `Option` stays `Option`.
-/

/-- `SingleVersioned` from `lock.rs`: the fundamental `(name, version)` pair. -/
structure SingleVersioned where
  name : String
  version : String
deriving DecidableEq, Repr, BEq

/-- `ImageIdentifier` from `lock.rs`.  Its `Display` impl renders
`Tag` as `:{tag}` and `Digest` as `@{digest}`. -/
inductive ImageIdentifier
  | Tag (tag : String)
  | Digest (digest : String)
deriving DecidableEq, Repr, BEq

/-- `Display` for `ImageIdentifier` (`lock.rs`). -/
def renderIdentifier : ImageIdentifier → String
  | .Tag t => ":" ++ t
  | .Digest d => "@" ++ d

/-- `BaseConfig` from `lock.rs`. -/
structure BaseConfig where
  name : String
  version : String
  registry : String
  identifier : ImageIdentifier
  package_manager : String
  tag : Option String
deriving DecidableEq, Repr, BEq

/-- `LayerType` from `lock.rs` (`Actual` is the serde default). -/
inductive LayerType
  | Build
  | Actual
deriving DecidableEq, Repr, BEq

/-- `DockerInstallation` from `lock.rs`. -/
structure DockerInstallation where
  commands : List String
  dependencies : List String
deriving DecidableEq, Repr, BEq

/-- `RpmInstallationMethod` from `lock.rs`. -/
structure RpmInstallationMethod where
  script : List String
deriving DecidableEq, Repr, BEq

/-- `RpmInstallation` from `lock.rs`: package-manager key → script recipe. -/
structure RpmInstallation where
  installation_methods : List (String × RpmInstallationMethod)
deriving DecidableEq, Repr, BEq

/-- `Installation` from `lock.rs`. -/
inductive Installation
  | Docker (d : DockerInstallation)
  | Rpm (r : RpmInstallation)
deriving DecidableEq, Repr, BEq

/-- `Layer` from `lock.rs` (named `LockLayer` here to distinguish it from the
synthesizer's internal `Layer` type of `docker_file.rs`). -/
structure LockLayer where
  layer_type : LayerType
  installation : Installation
  copy : List (String × String)
deriving DecidableEq, Repr, BEq

/-- `InstallationConfig` from `lock.rs`. -/
structure InstallationConfig where
  name : String
  version : String
  steps : List LockLayer
  tag : Option String
deriving DecidableEq, Repr, BEq

/-- `SingleBuild` from `lock.rs`. -/
structure SingleBuild where
  base : SingleVersioned
  features : List SingleVersioned
  target : String
  image_name : String
  image_tag : String
deriving DecidableEq, Repr, BEq

/-- `TuxWranglerConfigLocked` from `lock.rs`. -/
structure TuxWranglerConfigLocked where
  registry : String
  bases : List BaseConfig
  features : List InstallationConfig
  builds : List SingleBuild
deriving DecidableEq, Repr, BEq

namespace TuxWranglerConfigLocked

/-- `TuxWranglerConfigLocked::base`. -/
def base (cfg : TuxWranglerConfigLocked) (target_base : SingleVersioned) : Option BaseConfig :=
  cfg.bases.find? (fun b => b.name == target_base.name && b.version == target_base.version)

/-- `TuxWranglerConfigLocked::package_manager_for_base`. -/
def package_manager_for_base (cfg : TuxWranglerConfigLocked) (b : SingleVersioned) :
    Option String :=
  (cfg.base b).map (fun p => p.package_manager)

/-- `TuxWranglerConfigLocked::feature`. -/
def feature (cfg : TuxWranglerConfigLocked) (target_feature : SingleVersioned) :
    Option InstallationConfig :=
  cfg.features.find? (fun f =>
    f.name == target_feature.name && f.version == target_feature.version)

end TuxWranglerConfigLocked

/-- `Versioned` from `config.rs`. -/
structure Versioned where
  name : String
  versions : List String
deriving DecidableEq, Repr, BEq

/-- `BuildDefinition` from `config.rs`: either a bare name (expanded to all
declared versions of that name) or an inline `(name, versions)` override. -/
inductive BuildDefinition
  | Named (name : String)
  | Versioned (v : Versioned)
deriving DecidableEq, Repr, BEq

/-- `BuildDefinition::name`. -/
def BuildDefinition.name : BuildDefinition → String
  | .Named n => n
  | .Versioned v => v.name

/-- `VersionedDefinition` from `config.rs`.  The `fetch_version` field is
omitted: version discovery runs before the lock builder, whose input here is
the already-resolved `actual_versions` table (a function parameter below). -/
structure VersionedDefinition where
  versioned : Versioned
  version_tag : Option String
deriving DecidableEq, Repr, BEq

/-- `BaseDefinition` from `config.rs`. -/
structure BaseDefinition where
  definition : VersionedDefinition
  image : String
  package_manager : String
deriving DecidableEq, Repr, BEq

/-- `FeatureDefinition` from `config.rs`. -/
structure FeatureDefinition where
  definition : VersionedDefinition
  steps : List LockLayer
deriving DecidableEq, Repr, BEq

/-- `Build` from `config.rs`: one build request. -/
structure Build where
  bases : List BuildDefinition
  features : List (List BuildDefinition)
  image_name : String
  image_tag : String
deriving DecidableEq, Repr, BEq

/-- `TuxWranglerConfig` from `config.rs`. -/
structure TuxWranglerConfig where
  registry : String
  bases : List BaseDefinition
  features : List FeatureDefinition
  builds : List Build
deriving DecidableEq, Repr, BEq

/-! ## `update.rs` — the lock builder

The handlebars template engine is an external collaborator: `render`
stands for `SingleVersioned::populate_template` (template × version →
rendered string) and `render_name` for `populate_name_template` (whose
output also depends on the wall-clock date).  The registry digest lookup
`digest` is likewise external.  Everything else is translated directly.
-/

/-- The identifier selection in `TuxWranglerConfig::base_configs`
(`update.rs` lines 214–224): a successful digest lookup pins by digest;
on failure the rendered image's `:tag` is used instead (with a warning,
the `Bool` component), and if there is no tag the lookup error is returned.
-/
def image_identifier (digestResult : Except String String) (image : String) :
    Except String (ImageIdentifier × Bool) :=
  match digestResult with
  | .ok digest => .ok (.Digest digest, false)
  | .error e =>
    match Docker.tag image with
    | some t => .ok (.Tag t, true)
    | none => .error e

/-- `TuxWranglerConfig::base_configs` from `update.rs`. -/
def base_configs (cfg : TuxWranglerConfig)
    (digest : String → Except String String)
    (render : String → String → Except String String)
    (actual_versions : List (String × List (String × String))) :
    Except String (List (SingleVersioned × BaseConfig)) :=
  foldLoopE
    (fun bases base =>
      foldLoopE
        (fun bases version =>
          let name := base.definition.versioned.name
          match (match assocFind actual_versions name with
                 | none => Except.error ("No versions found for '" ++ name ++ "'")
                 | some vs =>
                   match assocFind vs version with
                   | none =>
                     Except.error ("Version '" ++ version ++ "' not found for '"
                       ++ name ++ "'")
                   | some v => Except.ok v) with
          | .error e => .error e
          | .ok actual =>
            match (match base.definition.version_tag with
                   | some t => (render t actual).map some
                   | none => Except.ok none) with
            | .error e => .error e
            | .ok tag =>
              match render base.image actual with
              | .error e => .error e
              | .ok image =>
                match image_identifier (digest image) image with
                | .error e => .error e
                | .ok identifier =>
                  Except.ok (assocInsert bases ⟨name, version⟩
                    ⟨name, actual, Docker.registry image, identifier.1,
                      base.package_manager, tag⟩))
        bases base.definition.versioned.versions)
    [] cfg.bases

/-- `TuxWranglerConfig::base_versions`: all declared versions of a base name. -/
def base_versions (cfg : TuxWranglerConfig) (target_base : String) : List String :=
  (cfg.bases.filter (fun b => b.definition.versioned.name == target_base)).flatMap
    (fun b => b.definition.versioned.versions)

/-- `TuxWranglerConfig::feature_versions`: all declared versions of a feature
name. -/
def feature_versions (cfg : TuxWranglerConfig) (target_feature : String) : List String :=
  (cfg.features.filter (fun f => f.definition.versioned.name == target_feature)).flatMap
    (fun f => f.definition.versioned.versions)

/-- The per-definition expansion used in `individual_builds`: a named entry
expands to every declared version of that name, an inline entry to its own
version list; each version becomes one `SingleVersioned`. -/
def expandDefs (lookup : String → List String) (bd : BuildDefinition) :
    List SingleVersioned :=
  let versions := match bd with
    | .Named target => lookup target
    | .Versioned v => v.versions
  versions.map (fun version => ⟨bd.name, version⟩)

/-- `itertools::multi_cartesian_product`: all combinations picking one
element from each list, first list outermost; the empty product has exactly
one (empty) combination. -/
def multiCartesianProduct {α : Type} : List (List α) → List (List α)
  | [] => [[]]
  | xs :: rest => xs.flatMap (fun x => (multiCartesianProduct rest).map (fun t => x :: t))

/-- `single_build` from `update.rs`: renders the image name/tag templates and
computes the `target` as the hyphen-join of the non-empty tags (base first,
then features in order). -/
def single_build
    (render_name : String → SingleVersioned → List SingleVersioned → Except String String)
    (image_name_template image_tag_template : String)
    (base : SingleVersioned) (base_tag : Option String)
    (features : List SingleVersioned) (feature_tags : List (Option String)) :
    Except String SingleBuild :=
  match render_name image_name_template base features with
  | .error e => .error e
  | .ok image_name =>
    match render_name image_tag_template base features with
    | .error e => .error e
    | .ok image_tag =>
      Except.ok ⟨base, features,
        String.intercalate "-"
          ((base_tag.toList ++ feature_tags.flatMap Option.toList).filter
            (fun t => !t.isEmpty)),
        image_name, image_tag⟩

/-- `TuxWranglerConfig::individual_builds` from `update.rs`: per build
request, expand the bases and each feature group, take the Cartesian product
of the feature groups and then of bases × feature tuples, look each entry up
in the resolved tables, and assemble a `SingleBuild`; the whole flattened
iterator of `Result`s is then collected (first error wins). -/
def individual_builds (cfg : TuxWranglerConfig)
    (render_name : String → SingleVersioned → List SingleVersioned → Except String String)
    (base_configs : List (SingleVersioned × BaseConfig))
    (feature_configs : List (SingleVersioned × InstallationConfig)) :
    Except String (List SingleBuild) :=
  (cfg.builds.flatMap (fun build =>
    let feature_groups := multiCartesianProduct
      (build.features.map (fun feature_set =>
        feature_set.flatMap (expandDefs (feature_versions cfg))))
    let bases := build.bases.flatMap (expandDefs (base_versions cfg))
    (bases.flatMap (fun base => feature_groups.map (fun features => (base, features)))).map
      (fun bf =>
        match (match assocFind base_configs bf.1 with
               | some p =>
                 Except.ok ((SingleVersioned.mk p.name p.version, p.tag) :
                   SingleVersioned × Option String)
               | none =>
                 Except.error ("Unable to find base '" ++ bf.1.name ++ "' with version '"
                   ++ bf.1.version)) with
        | .error e => .error e
        | .ok p =>
          match mapCollectE (fun feature =>
            match assocFind feature_configs feature with
            | some f =>
              Except.ok ((SingleVersioned.mk f.name f.version, f.tag) :
                SingleVersioned × Option String)
            | none =>
              Except.error ("Unable to find feature '" ++ feature.name
                ++ "' with version '" ++ feature.version)) bf.2 with
          | .error e => .error e
          | .ok feats =>
            single_build render_name build.image_name build.image_tag p.1 p.2
              (feats.map Prod.fst) (feats.map Prod.snd))))
  |> collectE

/-! ## `github.rs` — the GitHub client cache and retry wrapper

The HTTP page fetchers `get_tags`/`get_branches` are external collaborators
(oracles); the cache (`HashMap<(String, String), HashMap<u8, Vec<String>>>`),
`tags_inner` and the retry loop in `tags` are translated directly.  Besides
the result and the updated state, the embeddings report how many remote
fetches were attempted and (for `tags`) how many backoff sleeps happened.
-/

/-- `VersionFrom` from `config.rs`. -/
inductive VersionFrom
  | Tag
  | Branch
deriving DecidableEq, Repr, BEq

/-- `MAX_RETRIES` from `github.rs`. -/
def MAX_RETRIES : Nat := 5

/-- The GitHub client state: the memoization cache
`(org, project) → offset → tag list`. -/
structure GithubState where
  cache : List ((String × String) × List (Nat × List String))
deriving DecidableEq, Repr, BEq

/-- Cache lookup as in `tags_inner`: outer key `(org, project)`, inner key
`offset`.  Note the `version_from` kind is not part of the key. -/
def cacheLookup (st : GithubState) (org project : String) (offset : Nat) :
    Option (List String) :=
  match assocFind st.cache (org, project) with
  | none => none
  | some tag_sets => assocFind tag_sets offset

/-- Cache insertion as in `tags_inner`. -/
def cacheInsert (st : GithubState) (org project : String) (offset : Nat)
    (tags : List String) : GithubState :=
  match assocFind st.cache (org, project) with
  | some inner => ⟨assocInsert st.cache (org, project) (assocInsert inner offset tags)⟩
  | none => ⟨assocInsert st.cache (org, project) [(offset, tags)]⟩

/-- `Github::tags_inner`: returns the cached list when present (performing no
remote fetch), otherwise fetches (tags or branches, per `version_from`) and
caches the result.  The final component counts remote fetches (0 or 1). -/
def tags_inner (get_tags get_branches : String → String → Nat → Except String (List String))
    (st : GithubState) (org project : String) (offset : Nat) (version_from : VersionFrom) :
    Except String (List String) × GithubState × Nat :=
  match cacheLookup st org project offset with
  | some tags => (.ok tags, st, 0)
  | none =>
    match (match version_from with
           | .Tag => get_tags org project offset
           | .Branch => get_branches org project offset) with
    | .error e => (.error e, st, 1)
    | .ok tags => (.ok tags, cacheInsert st org project offset tags, 1)

/-- The retry loop of `Github::tags`, by remaining attempts.  Result,
final state, total remote fetches, total backoff sleeps. -/
def tagsAux (get_tags get_branches : String → String → Nat → Except String (List String))
    (org project : String) (offset : Nat) (version_from : VersionFrom) :
    Nat → GithubState → Except String (List String) × GithubState × Nat × Nat
  | 0, st =>
    (.error ("Unable to pull tags for '" ++ org ++ "/" ++ project ++ "' after '5' retries."),
      st, 0, 0)
  | n + 1, st =>
    match tags_inner get_tags get_branches st org project offset version_from with
    | (.ok r, st2, f) => (.ok r, st2, f, 0)
    | (.error _, st2, f) =>
      let rest := tagsAux get_tags get_branches org project offset version_from n st2
      (rest.1, rest.2.1, f + rest.2.2.1, 1 + rest.2.2.2)

/-- `Github::tags`: up to `MAX_RETRIES` attempts of `tags_inner`, sleeping
between attempts. -/
def Github.tags (get_tags get_branches : String → String → Nat → Except String (List String))
    (st : GithubState) (org project : String) (offset : Nat) (version_from : VersionFrom) :
    Except String (List String) × GithubState × Nat × Nat :=
  tagsAux get_tags get_branches org project offset version_from MAX_RETRIES st

/-- A page fetcher (test oracle) that always returns the same list. -/
def constFetch (v : List String) : String → String → Nat → Except String (List String) :=
  fun _ _ _ => .ok v

/-- A template renderer (test oracle) that returns the template verbatim, as
strict handlebars does on placeholder-free templates. -/
def render_id : String → SingleVersioned → List SingleVersioned → Except String String :=
  fun t _ _ => .ok t

/-- The scenario-S1 configuration: one base `a` with the single version
`1.0`, no features, one build of `a` with no feature groups. -/
def s1_config : TuxWranglerConfig :=
  ⟨"r", [⟨⟨⟨"a", ["1.0"]⟩, none⟩, "a:1.0", "pm"⟩], [], [⟨[.Named "a"], [], "n", "t"⟩]⟩

/-- The resolved base table matching `s1_config` (digest lookup failed, tag
fallback `1.0`, no version-tag). -/
def s1_base_configs : List (SingleVersioned × BaseConfig) :=
  [(⟨"a", "1.0"⟩, ⟨"a", "1.0", "a", .Tag "1.0", "pm", none⟩)]

/-- A scenario-S4-style lock: one untagged base and one feature whose first
step is `build`-kind with a cross-stage copy, consumed by the later stages. -/
def s4_lock : TuxWranglerConfigLocked :=
  ⟨"r",
   [⟨"a", "1.0", "a", .Tag "1.0", "pm", none⟩],
   [⟨"f", "1",
     [⟨.Build, .Docker ⟨["RUN make"], []⟩, [("/out", "/in")]⟩,
      ⟨.Actual, .Docker ⟨["RUN use"], []⟩, []⟩],
     some "ftag"⟩],
   [⟨⟨"a", "1.0"⟩, [⟨"f", "1"⟩], "tgt", "n", "t"⟩]⟩

/-! ## `docker_run.rs` — `Docker::run_command`

The Docker daemon is an external collaborator; each of its operations may
fail.  The embedding returns, besides the command output, the trace of
daemon operations actually performed, mirroring the early-`?` returns of the
source exactly.  (The `StartExecResults::Detached` arm of the source is
`unreachable!()` because the exec is created attached; the oracle therefore
directly returns the attached output stream's messages.)
-/

/-- The external Docker daemon: results of each operation used by
`run_command`. -/
structure DockerDaemon where
  pull : Except String Unit
  create_container : Except String String
  start_container : String → Except String Unit
  create_exec : String → List String → Except String String
  start_exec : String → Except String (List String)
  stop_container : String → Except String Unit
  remove_container : String → Except String Unit

/-- One daemon operation, for the execution trace. -/
inductive ContainerOp
  | pull
  | create
  | start (id : String)
  | createExec (id : String)
  | startExec (exec_id : String)
  | stop (id : String)
  | remove (id : String)
deriving DecidableEq, Repr, BEq

/-- `Docker::run_command` from `docker_run.rs`: pull, create, start, create
exec, start exec and collect output, stop, remove — each step propagating
its error with `?` exactly as the source does. -/
def Docker.run_command (d : DockerDaemon) (image : String) (commands : List String) :
    Except String (List String) × List ContainerOp :=
  match d.pull with
  | .error _ => (.error ("Unable to pull image '" ++ image ++ "'"), [.pull])
  | .ok _ =>
    match d.create_container with
    | .error e => (.error e, [.pull, .create])
    | .ok id =>
      match d.start_container id with
      | .error e => (.error e, [.pull, .create, .start id])
      | .ok _ =>
        match d.create_exec id commands with
        | .error e => (.error e, [.pull, .create, .start id, .createExec id])
        | .ok exec_id =>
          match d.start_exec exec_id with
          | .error e =>
            (.error e, [.pull, .create, .start id, .createExec id, .startExec exec_id])
          | .ok output =>
            match d.stop_container id with
            | .error e =>
              (.error e,
                [.pull, .create, .start id, .createExec id, .startExec exec_id, .stop id])
            | .ok _ =>
              match d.remove_container id with
              | .error e =>
                (.error e,
                  [.pull, .create, .start id, .createExec id, .startExec exec_id,
                    .stop id, .remove id])
              | .ok _ =>
                (.ok output,
                  [.pull, .create, .start id, .createExec id, .startExec exec_id,
                    .stop id, .remove id])

/-! ## `docker_file.rs` — the build-plan synthesizer

The source assembles the build file as `Vec<String>`, each line produced by
one of a handful of `format!` patterns (or copied verbatim from a docker
recipe).  The embedding keeps these lines structured: `DLine` has one
constructor per `format!` pattern, and `renderLine` recovers the exact
string of the source.  `Layer` of `docker_file.rs` is `DFLayer` here (the
lock's `Layer` is `LockLayer`).
-/

/-- One build-file line, one constructor per `format!` pattern of
`docker_file.rs` (`raw` is a verbatim docker-recipe command line). -/
inductive DLine
  | fromAs (src name : String)
  | baseFrom (registry : String) (identifier : ImageIdentifier) (name : String)
  | copyFrom (layer src dest : String)
  | raw (line : String)
  | run (scripts : List String)
deriving DecidableEq, Repr, BEq

/-- The exact string the source emits for each line. -/
def renderLine : DLine → String
  | .fromAs src name => "FROM " ++ src ++ " as " ++ name
  | .baseFrom registry identifier name =>
    "FROM " ++ registry ++ renderIdentifier identifier ++ " as " ++ name ++ "\n"
  | .copyFrom layer src dest => "COPY --from=" ++ layer ++ " " ++ src ++ " " ++ dest
  | .raw line => line
  | .run scripts => "RUN " ++ String.intercalate " && \\\n" scripts

/-- `Layer` from `docker_file.rs`: a named stage with its lines and local
build-context dependencies. -/
structure DFLayer where
  name : String
  lines : List DLine
  dependencies : List String
deriving DecidableEq, Repr, BEq

/-- `Layer::extend` from `docker_file.rs`. -/
def DFLayer.extend (l : DFLayer) (p : List DLine × List String) : DFLayer :=
  ⟨l.name, l.lines ++ p.1, l.dependencies ++ p.2⟩

/-- `run_command` from `docker_file.rs`: one `RUN` line joining the scripts,
or nothing when the script list is empty. -/
def run_command_line (commands : List String) : Option DLine :=
  if commands.isEmpty then none else some (.run commands)

/-- `rpm_installation` from `docker_file.rs`. -/
def rpm_installation (rpm_config : RpmInstallationMethod) : List DLine :=
  (run_command_line rpm_config.script).toList

/-- `docker_installation` from `docker_file.rs`: the recipe's command lines
verbatim, plus its local dependencies. -/
def docker_installation (docker_config : DockerInstallation) : List DLine × List String :=
  (docker_config.commands.map DLine.raw, docker_config.dependencies)

/-- `installation_inner` from `docker_file.rs`: selects the installation
method; an RPM step fails when the base's package manager has no entry. -/
def installation_inner (package_manager : String) (installation : Installation) :
    Except String (List DLine × List String) :=
  match installation with
  | .Docker docker_config => .ok (docker_installation docker_config)
  | .Rpm rpm_config =>
    match assocFind rpm_config.installation_methods package_manager with
    | some m => .ok (rpm_installation m, [])
    | none => .error ("No installation instructions for " ++ package_manager)

/-- The `COPY --from` lines generated from the `copies` table. -/
def copyLines (copies : List (String × List (String × String))) : List DLine :=
  copies.flatMap (fun lc => lc.2.map (fun sd => DLine.copyFrom lc.1 sd.1 sd.2))

/-- The step loop of `installation_layers`: walks the feature's steps
threading the `Actual`/`Build` previous-layer pointers and the `copies`
table; returns the step layers, the final `build_prev_layer` and the final
`copies` table. -/
def installationLayersAux (package_manager final_layer_name : String) :
    List LockLayer → Nat → String → String → List (String × List (String × String)) →
      Except String (List DFLayer × String × List (String × List (String × String)))
  | [], _, _, build_prev, copies => .ok ([], build_prev, copies)
  | step :: rest, i, ephemeral_prev, build_prev, copies =>
    let layer_name := final_layer_name ++ "-build-" ++ toString i
    -- (src, new ephemeral_prev, new build_prev)
    let ptrs : String × String × String :=
      if step.layer_type = LayerType.Actual then (build_prev, ephemeral_prev, layer_name)
      else (ephemeral_prev, layer_name, build_prev)
    match installation_inner package_manager step.installation with
    | .error e => .error e
    | .ok inner =>
      match installationLayersAux package_manager final_layer_name rest (i + 1)
        ptrs.2.1 ptrs.2.2 (assocInsert copies layer_name step.copy) with
      | .error e => .error e
      | .ok res =>
        .ok (((DFLayer.mk layer_name [DLine.fromAs ptrs.1 layer_name] []).extend
          (copyLines copies, [])).extend inner :: res.1, res.2.1, res.2.2)

/-- `installation_layers` from `docker_file.rs`: the step layers followed by
the always-present final merge stage. -/
def installation_layers (package_manager : String) (installation : InstallationConfig)
    (previous_layer : String) : Except String (List DFLayer) :=
  match installationLayersAux package_manager
    (toLowerStr (previous_layer ++ "-" ++ installation.name ++ "-"
      ++ installation.version ++ "-final"))
    installation.steps 0 previous_layer previous_layer [] with
  | .error e => .error e
  | .ok res =>
    .ok (res.1 ++
      [(DFLayer.mk
          (toLowerStr (previous_layer ++ "-" ++ installation.name ++ "-"
            ++ installation.version ++ "-final"))
          [DLine.fromAs res.2.1
            (toLowerStr (previous_layer ++ "-" ++ installation.name ++ "-"
              ++ installation.version ++ "-final"))] []).extend
        (copyLines res.2.2, [])])

/-- `base_layer` from `docker_file.rs`: stage named by the base's tag, or the
literal `"temp"` when the base has no tag. -/
def base_layer (base : BaseConfig) : DFLayer :=
  let layer_name := base.tag.getD "temp"
  ⟨layer_name, [DLine.baseFrom base.registry base.identifier layer_name], []⟩

/-- `tag_layer` from `docker_file.rs`. -/
def tag_layer (prev_layer t : String) : List DLine :=
  [DLine.fromAs prev_layer t]

/-- `HashSet::extend` over dependencies (first occurrence kept). -/
def depsExtend (deps newDeps : List String) : List String :=
  newDeps.foldl (fun d x => if x ∈ d then d else d ++ [x]) deps

/-- `HashSet::insert`: whether the name was new, and the updated set. -/
def seen_insert (seen : List String) (n : String) : Bool × List String :=
  if n ∈ seen then (false, seen) else (true, seen ++ [n])

/-- The per-layer emission step of aggregated mode: emit the layer's lines
and dependencies only when its name is new.  State:
`(layer_names, layers, dependencies)`. -/
def emitLayer (acc : List String × List DLine × List String) (layer : DFLayer) :
    List String × List DLine × List String :=
  let ins := seen_insert acc.1 layer.name
  if ins.1 then (ins.2, acc.2.1 ++ layer.lines, depsExtend acc.2.2 layer.dependencies)
  else (ins.2, acc.2.1, acc.2.2)

/-- `create_dockerfile_for` from `docker_file.rs` (single-target mode): base
stage then every feature's layers in order, no deduplication. -/
def create_dockerfile_for (config : TuxWranglerConfigLocked) (base : SingleVersioned)
    (features : List SingleVersioned) : Except String (List DLine × List String) :=
  match config.base base with
  | none =>
    .error ("Base " ++ base.name ++ "-" ++ base.version ++ " is missing from configuration")
  | some b =>
    let bl := base_layer b
    match config.package_manager_for_base base with
    | none =>
      .error ("Base " ++ base.name ++ "-" ++ base.version ++ " is missing a package manager")
    | some package_manager =>
      match foldLoopE
        (fun acc feature =>
          -- acc : (prev_layer, lines, dependencies)
          match config.feature feature with
          | none =>
            .error ("Feature " ++ feature.name ++ "-" ++ feature.version
              ++ " is missing from configuration")
          | some fc =>
            match installation_layers package_manager fc acc.1 with
            | .error e => .error e
            | .ok feature_layers =>
              match feature_layers.getLast? with
              | none => .error "Feature did not create any layers"
              | some last =>
                Except.ok (last.name, acc.2.1 ++ feature_layers.flatMap (fun l => l.lines),
                  depsExtend acc.2.2 (feature_layers.flatMap (fun l => l.dependencies))))
        ((bl.name, bl.lines, []) : String × List DLine × List String) features with
      | .error e => .error e
      | .ok st => Except.ok (st.2.1, st.2.2)

/-- `create_dockerfile` from `docker_file.rs` (aggregated mode): all builds of
the lock, deduplicating every stage whose name has already been emitted via
the `layer_names` set; a tag stage per build target. -/
def create_dockerfile (config : TuxWranglerConfigLocked) :
    Except String (List DLine × List String) :=
  match foldLoopE
    (fun acc build =>
      -- acc : (layer_names, layers, dependencies)
      match config.base build.base with
      | none =>
        .error ("Base " ++ build.base.name ++ "-" ++ build.base.version
          ++ " is missing from configuration")
      | some b =>
        let bl := base_layer b
        let ins := seen_insert acc.1 bl.name
        let layers0 := if ins.1 then acc.2.1 ++ bl.lines else acc.2.1
        match config.package_manager_for_base build.base with
        | none =>
          .error ("Base " ++ build.base.name ++ "-" ++ build.base.version
            ++ " is missing a package manager")
        | some package_manager =>
          match foldLoopE
            (fun acc2 feature =>
              -- acc2 : (prev_layer, layer_names, layers, dependencies)
              match config.feature feature with
              | none =>
                .error ("Feature " ++ feature.name ++ "-" ++ feature.version
                  ++ " is missing from configuration")
              | some fc =>
                match installation_layers package_manager fc acc2.1 with
                | .error e => .error e
                | .ok feature_layers =>
                  match feature_layers.getLast? with
                  | none => .error "Feature did not create any layers"
                  | some last =>
                    Except.ok (last.name, feature_layers.foldl emitLayer
                      (acc2.2.1, acc2.2.2.1, acc2.2.2.2)))
            ((bl.name, ins.2, layers0, acc.2.2) :
              String × List String × List DLine × List String) build.features with
          | .error e => .error e
          | .ok st2 =>
            let insT := seen_insert st2.2.1 build.target
            Except.ok
              ((insT.2,
                if insT.1 then st2.2.2.1 ++ tag_layer st2.1 build.target else st2.2.2.1,
                st2.2.2.2) : List String × List DLine × List String))
    (([], [], []) : List String × List DLine × List String) config.builds with
  | .error e => .error e
  | .ok st => Except.ok (st.2.1, st.2.2)

/-! ### The cross-stage copy invariant checker -/

/-- The stage name a line introduces (`FROM … as X`), if any. -/
def lineDefines : DLine → Option String
  | .fromAs _ n => some n
  | .baseFrom _ _ n => some n
  | _ => none

/-- Scan of a line sequence: every `COPY --from=X` must refer to a stage name
`X` introduced by an earlier `FROM … as X` line (or one in `defined`). -/
def copyOkAux (defined : List String) : List DLine → Bool
  | [] => true
  | l :: ls =>
    match l with
    | .copyFrom layer _ _ => decide (layer ∈ defined) && copyOkAux defined ls
    | .fromAs _ n => copyOkAux (n :: defined) ls
    | .baseFrom _ _ n => copyOkAux (n :: defined) ls
    | _ => copyOkAux defined ls

/-- The claim's invariant over a whole build file. -/
def copyOkB (lines : List DLine) : Bool :=
  copyOkAux [] lines

/-- The stage names defined after scanning `lines`, starting from `defined`. -/
def definedAcc (defined : List String) (lines : List DLine) : List String :=
  lines.foldl
    (fun d l => match lineDefines l with
      | some n => n :: d
      | none => d)
    defined

/-- Chained well-formedness of a layer list: each layer's copies refer only to
`defined` plus the names of earlier layers in the list, and each layer's lines
introduce its own name. -/
def layersChainOk (defined : List String) : List DFLayer → Bool
  | [] => true
  | l :: ls =>
    copyOkAux defined l.lines && decide (l.name ∈ definedAcc defined l.lines)
      && layersChainOk (l.name :: defined) ls

/-- The names of a layer list accumulated onto `defined`. -/
def namesAcc (defined : List String) (layers : List DFLayer) : List String :=
  layers.foldl (fun d l => l.name :: d) defined

deriving instance DecidableEq for Except

/-- Length of `dropWhile` never exceeds the length of the list. -/
theorem length_dropWhile_le' {α : Type} (p : α → Bool) :
    ∀ l : List α, (l.dropWhile p).length ≤ l.length := by
  intro l
  induction l with
  | nil => simp [List.dropWhile]
  | cons c cs ih =>
    simp only [List.dropWhile]
    split
    · exact Nat.le_succ_of_le ih
    · simp

/-- A separator character is never a group character. -/
theorem sep_not_group {c : Char} (h : isSepChar c = true) : isGroupChar c = false := by
  simp only [isSepChar, Bool.and_eq_true, Bool.not_eq_true', decide_eq_true_eq] at h
  simp [isGroupChar, h.1.1, h.2]

/-- `asString` sends exactly the empty list to the empty string. -/
theorem asString_eq_empty_iff (l : List Char) : l.asString = "" ↔ l = [] := by
  constructor
  · intro h
    simpa using congrArg String.data h
  · intro h; subst h; rfl

/-- If `takeWhile` returns nothing, `dropWhile` returns the whole list. -/
theorem dropWhile_of_takeWhile_nil {α : Type} {p : α → Bool} :
    ∀ {l : List α}, l.takeWhile p = [] → l.dropWhile p = l := by
  intro l h
  cases l with
  | nil => rfl
  | cons c cs =>
    rw [List.takeWhile_cons] at h
    by_cases hp : p c = true
    · simp [hp] at h
    · simp [List.dropWhile_cons, hp]

/-- `wordRuns` ignores a leading run of separator characters. -/
theorem wordRuns_dropWhile_sep : ∀ l : List Char, wordRuns (l.dropWhile isSepChar) = wordRuns l := by
  intro l
  induction l with
  | nil => rfl
  | cons c cs ih =>
    by_cases h : isSepChar c = true
    · rw [List.dropWhile_cons]
      simp only [h, if_true]
      rw [ih, wordRuns]
      simp [sep_not_group h]
    · rw [List.dropWhile_cons]
      simp [h]

/-- Unfolding `wordRuns` at a list whose head is a group character. -/
theorem wordRuns_group_head {l : List Char} (h : l.takeWhile isGroupChar ≠ []) :
    wordRuns l = (l.takeWhile isGroupChar).asString :: wordRuns (l.dropWhile isGroupChar) := by
  cases l with
  | nil => simp at h
  | cons c cs =>
    by_cases hg : isGroupChar c = true
    · rw [wordRuns]
      simp [hg]
    · rw [List.takeWhile_cons] at h
      simp [hg] at h

/-- The non-empty tokens produced by the `captures_iter` scan are exactly the
maximal `[\w\*]` runs, for any sufficient fuel and either skip-flag. -/
theorem splitVersionAux_filter :
    ∀ (fuel : Nat) (l : List Char) (flag : Bool), l.length < fuel →
      (splitVersionAux fuel l flag).filter (fun t => t ≠ "") = wordRuns l := by
  intro fuel
  induction fuel with
  | zero => intro l flag h; omega
  | succ fuel ih =>
    intro l flag h
    cases l with
    | nil => cases flag <;> simp [splitVersionAux, wordRuns]
    | cons c cs =>
      have hlen : cs.length < fuel := by simpa using Nat.lt_of_succ_lt_succ h
      by_cases hs : isSepChar c = true
      · -- Case 1: head is a separator; the match consumes the separator run and
        -- then a (possibly empty) group run.
        have hg : isGroupChar c = false := sep_not_group hs
        rw [splitVersionAux]
        rw [if_pos (by simp [hs])]
        simp only [List.dropWhile_cons, hs, if_true]
        have hrest1 : (List.dropWhile isSepChar cs).length < fuel :=
          Nat.lt_of_le_of_lt (length_dropWhile_le' _ _) hlen
        have hrw : wordRuns (c :: cs) = wordRuns (List.dropWhile isSepChar cs) := by
          rw [wordRuns_dropWhile_sep cs, wordRuns]
          simp [hg]
        rw [hrw]
        by_cases hgr : (List.dropWhile isSepChar cs).takeWhile isGroupChar = []
        · -- the group run is empty: the yielded token is "" and gets filtered out
          rw [hgr, dropWhile_of_takeWhile_nil hgr, List.filter_cons]
          rw [if_neg (by decide)]
          exact ih _ true hrest1
        · -- the group run is non-empty: the yielded token is the run itself
          rw [wordRuns_group_head hgr, List.filter_cons]
          rw [if_pos (by simpa using (asString_eq_empty_iff _).not.mpr hgr)]
          have hrest2 : ((List.dropWhile isSepChar cs).dropWhile isGroupChar).length < fuel :=
            Nat.lt_of_le_of_lt (length_dropWhile_le' _ _) hrest1
          rw [ih _ true hrest2]
      · by_cases hg : isGroupChar c = true
        · -- Case 2: head is a group character; the match is the group run at the head.
          rw [splitVersionAux]
          rw [if_pos (by simp [hg])]
          have hd : List.dropWhile isSepChar (c :: cs) = c :: cs := by
            simp [List.dropWhile_cons, hs]
          rw [hd]
          have htw : (c :: cs).takeWhile isGroupChar ≠ [] := by
            simp [List.takeWhile_cons, hg]
          have h1 : ((c :: cs).dropWhile isGroupChar).length < fuel := by
            rw [List.dropWhile_cons]
            simp only [hg, if_true]
            exact Nat.lt_of_le_of_lt (length_dropWhile_le' _ _) hlen
          rw [wordRuns_group_head htw, List.filter_cons]
          rw [if_pos (by simpa using (asString_eq_empty_iff _).not.mpr htw)]
          rw [ih _ true h1]
        · -- Case 3: the head (`^`) is in neither class: empty match, advance one char.
          rw [splitVersionAux]
          rw [if_neg (by simp [hs, hg])]
          have hrw : wordRuns (c :: cs) = wordRuns cs := by rw [wordRuns]; simp [hg]
          rw [hrw]
          cases flag
          · rw [if_neg (by simp), List.filter_cons]
            rw [if_neg (by decide)]
            exact ih _ false hlen
          · rw [if_pos rfl]
            exact ih _ false hlen

/-- Claim C1 — scenario S2: with `tags = ["3.11.0", "3.10.4", "3.9.2"]`,
`find_tag` returns `"3.10.4"` for target `"3.10.*"`, `"3.11.0"` for target
`"3.*"`, and an error for target `"4.*"`. -/
theorem find_tag_scenario_s2 :
    find_tag "3.10.*" ["3.11.0", "3.10.4", "3.9.2"] = .ok "3.10.4"
    ∧ find_tag "3.*" ["3.11.0", "3.10.4", "3.9.2"] = .ok "3.11.0"
    ∧ (find_tag "4.*" ["3.11.0", "3.10.4", "3.9.2"]).isOk = false := by
  refine ⟨by rfl, by rfl, by rfl⟩

/-- Claim C2, counterexample: `split_version` does *not* drop empty tokens.
On `"3."` the trailing separator produces a match whose capture group is
empty, so the returned list contains the empty token. -/
theorem split_version_empty_token_counterexample :
    split_version "3." = ["3", ""] ∧ "" ∈ split_version "3." := by
  refine ⟨by rfl, by rw [(by rfl : split_version "3." = ["3", ""])]; simp⟩

/-- Claim C2 (amended): `split_version` tokenizes along maximal runs of the
character class `[\w*]` — its non-empty tokens are exactly those runs, in
order — but empty tokens are *not* dropped (they appear e.g. for trailing
separators); `split_version "3.11.0" = ["3", "11", "0"]`. -/
theorem split_version_tokens_are_word_runs :
    (∀ s : String, (split_version s).filter (fun t => t ≠ "") = wordRuns s.data)
    ∧ split_version "3.11.0" = ["3", "11", "0"] := by
  constructor
  · intro s
    exact splitVersionAux_filter _ _ false (Nat.lt_succ_self _)
  · rfl

/-! ### `docker.rs` theorems -/

/-- `splitColon` always yields at least one piece. -/
theorem splitColon_ne_nil : ∀ l : List Char, splitColon l ≠ [] := by
  intro l
  cases l with
  | nil => simp [splitColon]
  | cons c cs =>
    rw [splitColon]
    by_cases h : c = ':'
    · simp [h]
    · simp only [h, if_false]
      cases hs : splitColon cs with
      | nil => simp
      | cons t ts => simp

/-- The first piece of `splitColon` is the prefix before the first `:`. -/
theorem splitColon_head :
    ∀ l : List Char, (splitColon l).headD [] = l.takeWhile (fun c => c ≠ ':') := by
  intro l
  induction l with
  | nil => rfl
  | cons c cs ih =>
    rw [splitColon]
    by_cases h : c = ':'
    · simp [h, List.takeWhile_cons]
    · simp only [h, if_false]
      cases hs : splitColon cs with
      | nil => exact absurd hs (splitColon_ne_nil cs)
      | cons t ts =>
        rw [hs] at ih
        simp only [List.headD_cons] at ih ⊢
        rw [List.takeWhile_cons, if_pos (by simp [h]), ih]

/-- The second piece of `splitColon` is the text between the first and the
second `:`, present exactly when the list contains a `:`. -/
theorem splitColon_second :
    ∀ l : List Char, (splitColon l).get? 1 =
      if (':') ∈ l then
        some (((l.dropWhile (fun c => c ≠ ':')).drop 1).takeWhile (fun c => c ≠ ':'))
      else none := by
  intro l
  induction l with
  | nil => simp [splitColon]
  | cons c cs ih =>
    rw [splitColon]
    by_cases h : c = ':'
    · subst h
      rw [if_pos rfl, if_pos (List.mem_cons_self _ _)]
      cases hs : splitColon cs with
      | nil => exact absurd hs (splitColon_ne_nil cs)
      | cons t ts =>
        have hh := splitColon_head cs
        rw [hs] at hh
        simp only [List.headD_cons] at hh
        rw [List.dropWhile_cons, if_neg (by simp)]
        simp [hh]
    · rw [if_neg h]
      cases hs : splitColon cs with
      | nil => exact absurd hs (splitColon_ne_nil cs)
      | cons t ts =>
        rw [hs] at ih
        have hmem : ((':') ∈ c :: cs) ↔ ((':') ∈ cs) := by
          simp only [List.mem_cons]
          constructor
          · rintro (h1 | h1)
            · exact absurd h1.symm h
            · exact h1
          · intro h1
            exact Or.inr h1
        have hdw : List.dropWhile (fun x => decide (x ≠ ':')) (c :: cs)
            = List.dropWhile (fun x => decide (x ≠ ':')) cs := by
          rw [List.dropWhile_cons, if_pos (by simp [h])]
        simp only [List.get?_cons_succ, List.get?_cons_zero] at ih ⊢
        rw [ih]
        by_cases hc : (':') ∈ cs
        · rw [if_pos hc, if_pos (hmem.mpr hc), hdw]
        · rw [if_neg hc, if_neg (fun hx => hc (hmem.mp hx))]

/-- Claim C9: `Docker::registry` returns the substring before the first `:`
(the whole string when there is none); `Docker::tag` returns the substring
between the first and second `:` (`none` when there is no `:`); hence for an
image reference whose registry host carries a port but no tag, such as
`"host:5000/img"`, `tag` returns `some "5000/img"` and the digest fallback
treats the port-and-path text as the tag instead of failing. -/
theorem docker_registry_tag_spec :
    (∀ image : String,
      Docker.registry image = (image.data.takeWhile (fun c => c ≠ ':')).asString)
    ∧ (∀ image : String, (':') ∉ image.data → Docker.registry image = image)
    ∧ (∀ image : String, Docker.tag image =
        if (':') ∈ image.data then
          some ((((image.data.dropWhile (fun c => c ≠ ':')).drop 1).takeWhile
            (fun c => c ≠ ':')).asString)
        else none)
    ∧ Docker.tag "host:5000/img" = some "5000/img"
    ∧ image_identifier (.error "no digest") "host:5000/img" = .ok (.Tag "5000/img", true) := by
  refine ⟨?_, ?_, ?_, by rfl, by rfl⟩
  · intro image
    rw [Docker.registry, splitColon_head]
  · intro image h
    rw [Docker.registry, splitColon_head]
    have he : image.data.takeWhile (fun c => c ≠ ':') = image.data := by
      rw [List.takeWhile_eq_self_iff]
      intro a ha
      simp only [decide_eq_true_eq]
      intro hc
      exact h (hc ▸ ha)
    rw [he]
    cases image
    rfl
  · intro image
    rw [Docker.tag, splitColon_second]
    by_cases h : (':') ∈ image.data <;> simp [h]

/-- Witness for `docker_registry_tag_spec`: the no-colon case at `"img"`. -/
theorem docker_registry_tag_spec_witness :
    Docker.registry "img" = "img" :=
  docker_registry_tag_spec.2.1 "img" (by decide)

/-! ### `update.rs` theorems — digest fallback -/

/-- Claim C6: when resolving a base, a successful registry digest lookup
yields `Digest{digest}` (no warning); on lookup failure resolution succeeds
with `Tag{tag}` plus a warning exactly when the rendered image carries a
`:tag`, and otherwise the digest-lookup error is returned. -/
theorem base_digest_fallback :
    ∀ (image digest err : String),
      image_identifier (.ok digest) image = .ok (.Digest digest, false)
      ∧ (∀ t, Docker.tag image = some t →
          image_identifier (.error err) image = .ok (.Tag t, true))
      ∧ (Docker.tag image = none → image_identifier (.error err) image = .error err) := by
  intro image digest err
  refine ⟨rfl, ?_, ?_⟩
  · intro t ht
    simp [image_identifier, ht]
  · intro ht
    simp [image_identifier, ht]

/-- Witness for `base_digest_fallback` at `"img:v1"` and `"img"` (scenario
S5). -/
theorem base_digest_fallback_witness :
    image_identifier (.ok "sha") "img:v1" = .ok (.Digest "sha", false)
    ∧ image_identifier (.error "e") "img:v1" = .ok (.Tag "v1", true)
    ∧ image_identifier (.error "e") "img" = .error "e" :=
  ⟨(base_digest_fallback "img:v1" "sha" "e").1,
   (base_digest_fallback "img:v1" "sha" "e").2.1 "v1" (by rfl),
   (base_digest_fallback "img" "sha" "e").2.2 (by rfl)⟩

/-! ### `docker_run.rs` theorems -/

/-- Claim C7 (code evaluation at the failing input): when `start_container`
fails (pull and create having succeeded), `run_command` returns the error
after performing only `[pull, create, start]` — neither `stop_container`
nor `remove_container` runs — whereas on the success path the full teardown
is performed.  The claim (and §4.3/§6 of the spec) require teardown on
every failure path, which this execution violates. -/
theorem run_command_skips_teardown_on_start_failure :
    Docker.run_command
      ⟨.ok (), .ok "cid", fun _ => .error "boom", fun _ _ => .ok "eid",
        fun _ => .ok ["out"], fun _ => .ok (), fun _ => .ok ()⟩
      "img" ["cat", "version"]
      = (.error "boom", [.pull, .create, .start "cid"])
    ∧ ContainerOp.stop "cid" ∉ ([.pull, .create, .start "cid"] : List ContainerOp)
    ∧ ContainerOp.remove "cid" ∉ ([.pull, .create, .start "cid"] : List ContainerOp)
    ∧ Docker.run_command
        ⟨.ok (), .ok "cid", fun _ => .ok (), fun _ _ => .ok "eid",
          fun _ => .ok ["out"], fun _ => .ok (), fun _ => .ok ()⟩
        "img" ["cat", "version"]
      = (.ok ["out"],
          [.pull, .create, .start "cid", .createExec "cid", .startExec "eid",
            .stop "cid", .remove "cid"]) := by
  refine ⟨rfl, by simp, by simp, rfl⟩

/-! ### Association-list lemmas -/

theorem assocFind_cons {κ ν : Type} [DecidableEq κ] (e : κ × ν) (l : List (κ × ν)) (k : κ) :
    assocFind (e :: l) k = if e.1 = k then some e.2 else assocFind l k := by
  by_cases h : e.1 = k
  · simp [assocFind, List.find?_cons, h]
  · simp [assocFind, List.find?_cons, h]

/-- Replacing the value at key `k` does not disturb lookups at other keys. -/
theorem assocFind_map_replace {κ ν : Type} [DecidableEq κ] (l : List (κ × ν)) (k k' : κ)
    (v : ν) (h : k' ≠ k) :
    assocFind (l.map (fun e => if e.1 = k then (k, v) else e)) k' = assocFind l k' := by
  induction l with
  | nil => rfl
  | cons e es ih =>
    by_cases he : e.1 = k
    · simp only [List.map_cons, if_pos he]
      rw [assocFind_cons, assocFind_cons]
      rw [if_neg (fun hx : k = k' => h hx.symm), if_neg (fun hx : e.1 = k' => h (he ▸ hx).symm)]
      exact ih
    · simp only [List.map_cons, if_neg he]
      rw [assocFind_cons, assocFind_cons]
      by_cases hek' : e.1 = k'
      · simp [hek']
      · simp [hek', ih]

/-- Replacing the value at a present key `k` makes lookups at `k` return the
new value. -/
theorem assocFind_map_replace_self {κ ν : Type} [DecidableEq κ] (l : List (κ × ν)) (k : κ)
    (v : ν) (h : ∃ x ∈ l, x.1 = k) :
    assocFind (l.map (fun e => if e.1 = k then (k, v) else e)) k = some v := by
  induction l with
  | nil => simp at h
  | cons e es ih =>
    by_cases he : e.1 = k
    · simp only [List.map_cons, if_pos he]
      rw [assocFind_cons]
      simp
    · simp only [List.map_cons, if_neg he]
      rw [assocFind_cons, if_neg he]
      apply ih
      rcases h with ⟨x, hx, hxk⟩
      rcases List.mem_cons.mp hx with h1 | h1
      · exact absurd (h1 ▸ hxk) he
      · exact ⟨x, h1, hxk⟩

theorem assocFind_append {κ ν : Type} [DecidableEq κ] (l₁ l₂ : List (κ × ν)) (k : κ) :
    assocFind (l₁ ++ l₂) k =
      match assocFind l₁ k with
      | some v => some v
      | none => assocFind l₂ k := by
  induction l₁ with
  | nil => simp [assocFind]
  | cons e es ih =>
    rw [List.cons_append, assocFind_cons, assocFind_cons]
    by_cases he : e.1 = k
    · simp [he]
    · simp [he, ih]

/-- The fundamental `insert`/`get` law for the association-list `HashMap`. -/
theorem assocFind_assocInsert {κ ν : Type} [DecidableEq κ] (l : List (κ × ν)) (k k' : κ)
    (v : ν) :
    assocFind (assocInsert l k v) k' = if k' = k then some v else assocFind l k' := by
  by_cases hfs : (l.find? (fun e => e.1 = k)).isSome = true
  · rw [assocInsert, if_pos hfs]
    by_cases hk : k' = k
    · subst hk
      rw [if_pos rfl]
      apply assocFind_map_replace_self
      rcases Option.isSome_iff_exists.mp hfs with ⟨x, hx⟩
      exact ⟨x, List.mem_of_find?_eq_some hx, by simpa using List.find?_some hx⟩
    · rw [if_neg hk]
      exact assocFind_map_replace l k k' v hk
  · rw [assocInsert, if_neg hfs]
    have hnone : assocFind l k = none := by
      rw [assocFind]
      rcases Option.not_isSome_iff_eq_none.mp hfs with h
      rw [h]
      rfl
    rw [assocFind_append]
    by_cases hk : k' = k
    · subst hk
      rw [hnone, if_pos rfl]
      rw [assocFind_cons]
      simp
    · rw [if_neg hk]
      cases hl : assocFind l k' with
      | some w => rfl
      | none =>
        simp only
        rw [assocFind_cons, if_neg (fun hx : k = k' => hk hx.symm)]
        rfl

/-! ### `github.rs` theorems -/

/-- Inserting into the cache makes the inserted key's lookup succeed. -/
theorem cacheLookup_cacheInsert_self (st : GithubState) (o p : String) (off : Nat)
    (tags : List String) :
    cacheLookup (cacheInsert st o p off tags) o p off = some tags := by
  rw [cacheInsert]
  cases h : assocFind st.cache (o, p) with
  | some inner =>
    rw [cacheLookup]
    show (match assocFind (assocInsert st.cache (o, p) (assocInsert inner off tags))
        (o, p) with
      | none => none
      | some tag_sets => assocFind tag_sets off) = some tags
    rw [assocFind_assocInsert, if_pos rfl]
    show assocFind (assocInsert inner off tags) off = some tags
    rw [assocFind_assocInsert, if_pos rfl]
  | none =>
    rw [cacheLookup]
    show (match assocFind (assocInsert st.cache (o, p) [(off, tags)]) (o, p) with
      | none => none
      | some tag_sets => assocFind tag_sets off) = some tags
    rw [assocFind_assocInsert, if_pos rfl]
    show assocFind [(off, tags)] off = some tags
    rw [assocFind_cons, if_pos rfl]

/-- Inserting one key into the cache preserves every other cached entry. -/
theorem cacheLookup_cacheInsert_preserve (st : GithubState) (o p o' p' : String)
    (off off' : Nat) (tags v : List String)
    (hmiss : cacheLookup st o' p' off' = none)
    (hhit : cacheLookup st o p off = some v) :
    cacheLookup (cacheInsert st o' p' off' tags) o p off = some v := by
  rw [cacheLookup] at hhit
  cases houter : assocFind st.cache (o, p) with
  | none => rw [houter] at hhit; exact absurd hhit (by simp)
  | some inner =>
    rw [houter] at hhit
    by_cases hop : ((o, p) : String × String) = (o', p')
    · -- same (org, project): the inner offset map gets a new entry at `off'`
      injection hop with ho hp
      subst ho
      subst hp
      rw [cacheLookup, houter] at hmiss
      have hoffne : off ≠ off' := by
        intro hx
        rw [hx, hmiss] at hhit
        exact absurd hhit (by simp)
      rw [cacheInsert, houter, cacheLookup]
      show (match assocFind (assocInsert st.cache (o, p) (assocInsert inner off' tags))
          (o, p) with
        | none => none
        | some tag_sets => assocFind tag_sets off) = some v
      rw [assocFind_assocInsert, if_pos rfl]
      show assocFind (assocInsert inner off' tags) off = some v
      rw [assocFind_assocInsert, if_neg hoffne]
      exact hhit
    · -- different (org, project): the outer map entry for (o, p) is untouched
      rw [cacheInsert]
      cases houter' : assocFind st.cache (o', p') with
      | some inner' =>
        rw [cacheLookup]
        show (match assocFind (assocInsert st.cache (o', p')
            (assocInsert inner' off' tags)) (o, p) with
          | none => none
          | some tag_sets => assocFind tag_sets off) = some v
        rw [assocFind_assocInsert, if_neg hop, houter]
        exact hhit
      | none =>
        rw [cacheLookup]
        show (match assocFind (assocInsert st.cache (o', p') [(off', tags)]) (o, p) with
          | none => none
          | some tag_sets => assocFind tag_sets off) = some v
        rw [assocFind_assocInsert, if_neg hop, houter]
        exact hhit

/-- A cache hit returns the cached list, leaves the state unchanged and
performs no remote fetch. -/
theorem tags_inner_hit
    (gt gb : String → String → Nat → Except String (List String))
    (st : GithubState) (o p : String) (off : Nat) (vf : VersionFrom) (v : List String)
    (h : cacheLookup st o p off = some v) :
    tags_inner gt gb st o p off vf = (.ok v, st, 0) := by
  unfold tags_inner
  rw [h]

/-- A successful `tags_inner` call leaves its result in the cache under its
`(org, project, offset)` key. -/
theorem tags_inner_stores
    (gt gb : String → String → Nat → Except String (List String))
    (st : GithubState) (o p : String) (off : Nat) (vf : VersionFrom)
    (v : List String) (st' : GithubState) (f : Nat)
    (h : tags_inner gt gb st o p off vf = (.ok v, st', f)) :
    cacheLookup st' o p off = some v := by
  unfold tags_inner at h
  cases hc : cacheLookup st o p off with
  | some tags =>
    rw [hc] at h
    have h1 : Except.ok tags = Except.ok v := congrArg Prod.fst h
    have h2 : st = st' := congrArg (fun t => t.2.1) h
    injection h1 with h1
    subst h1
    subst h2
    exact hc
  | none =>
    rw [hc] at h
    cases hfetch : (match vf with
      | VersionFrom.Tag => gt o p off
      | VersionFrom.Branch => gb o p off) with
    | error e =>
      rw [hfetch] at h
      exact absurd (congrArg Prod.fst h) (by simp)
    | ok tags =>
      rw [hfetch] at h
      have h1 : Except.ok tags = Except.ok v := congrArg Prod.fst h
      have h2 : cacheInsert st o p off tags = st' := congrArg (fun t => t.2.1) h
      injection h1 with h1
      subst h1
      subst h2
      exact cacheLookup_cacheInsert_self st o p off _

/-- Any `tags_inner` call (any key, any kind) preserves existing cache
entries. -/
theorem tags_inner_preserves
    (gt gb : String → String → Nat → Except String (List String))
    (st : GithubState) (o p o' p' : String) (off off' : Nat) (vf' : VersionFrom)
    (v : List String) (h : cacheLookup st o p off = some v) :
    cacheLookup (tags_inner gt gb st o' p' off' vf').2.1 o p off = some v := by
  unfold tags_inner
  cases hc : cacheLookup st o' p' off' with
  | some t => exact h
  | none =>
    cases hfetch : (match vf' with
      | VersionFrom.Tag => gt o' p' off'
      | VersionFrom.Branch => gb o' p' off') with
    | error e => exact h
    | ok tags => exact cacheLookup_cacheInsert_preserve st o p o' p' off off' tags v hc h

/-- Claim C8: the GitHub client memoizes per `(org, project, offset)`: a
successful `tags_inner` stores its list under that key; once cached, every
later `tags_inner` call with the same key returns the cached list with no
remote fetch and no state change (and no other call evicts the entry); and
the retry wrapper `tags` returns a cache hit immediately, with zero backoff
sleeps. -/
theorem github_cache_memoization :
    (∀ gt gb st org project offset vf v st' f,
        tags_inner gt gb st org project offset vf = (.ok v, st', f) →
        cacheLookup st' org project offset = some v)
    ∧ (∀ gt gb st org project offset vf v,
        cacheLookup st org project offset = some v →
        tags_inner gt gb st org project offset vf = (.ok v, st, 0)
        ∧ Github.tags gt gb st org project offset vf = (.ok v, st, 0, 0))
    ∧ (∀ st org project offset v gt' gb' org' project' offset' vf',
        cacheLookup st org project offset = some v →
        cacheLookup (tags_inner gt' gb' st org' project' offset' vf').2.1
          org project offset = some v) := by
  refine ⟨?_, ?_, ?_⟩
  · intro gt gb st org project offset vf v st' f h
    exact tags_inner_stores gt gb st org project offset vf v st' f h
  · intro gt gb st org project offset vf v h
    refine ⟨tags_inner_hit gt gb st org project offset vf v h, ?_⟩
    rw [Github.tags, MAX_RETRIES, tagsAux,
      tags_inner_hit gt gb st org project offset vf v h]
  · intro st org project offset v gt' gb' org' project' offset' vf' h
    exact tags_inner_preserves gt' gb' st org project org' project' offset offset' vf' v h

/-- Witness for `github_cache_memoization`: a concrete cached entry is
returned without fetching, survives an unrelated call, and `tags` returns it
with zero sleeps. -/
theorem github_cache_memoization_witness :
    tags_inner (constFetch ["x"]) (constFetch ["y"])
      (GithubState.mk [(("o", "p"), [(2, ["cached"])])]) "o" "p" 2 .Tag
      = (.ok ["cached"], (GithubState.mk [(("o", "p"), [(2, ["cached"])])]), 0)
    ∧ Github.tags (constFetch ["x"]) (constFetch ["y"])
        (GithubState.mk [(("o", "p"), [(2, ["cached"])])]) "o" "p" 2 .Tag
      = (.ok ["cached"], (GithubState.mk [(("o", "p"), [(2, ["cached"])])]), 0, 0)
    ∧ cacheLookup (tags_inner (constFetch ["x"]) (constFetch ["y"])
        (GithubState.mk [(("o", "p"), [(2, ["cached"])])]) "o" "p" 0 .Tag).2.1 "o" "p" 2
      = some ["cached"] :=
  ⟨(github_cache_memoization.2.1 (constFetch ["x"]) (constFetch ["y"])
      (GithubState.mk [(("o", "p"), [(2, ["cached"])])]) "o" "p" 2 .Tag ["cached"] (by rfl)).1,
   (github_cache_memoization.2.1 (constFetch ["x"]) (constFetch ["y"])
      (GithubState.mk [(("o", "p"), [(2, ["cached"])])]) "o" "p" 2 .Tag ["cached"] (by rfl)).2,
   github_cache_memoization.2.2
      (GithubState.mk [(("o", "p"), [(2, ["cached"])])]) "o" "p" 2 ["cached"]
      (constFetch ["x"]) (constFetch ["y"]) "o" "p" 0 .Tag (by rfl)⟩

/-- Claim C10: the cache key is `(org, project, offset)` and does not include
the `version_from` kind — after a successful call with one kind, a later call
with the other kind (or the same) and the same key returns the cached list
without fetching, whatever its own fetchers would return. -/
theorem github_cache_ignores_kind :
    ∀ gt gb gt' gb' st org project offset vf vf' v st' f,
      tags_inner gt gb st org project offset vf = (.ok v, st', f) →
      tags_inner gt' gb' st' org project offset vf' = (.ok v, st', 0) := by
  intro gt gb gt' gb' st org project offset vf vf' v st' f h
  exact tags_inner_hit gt' gb' st' org project offset vf' v
    (tags_inner_stores gt gb st org project offset vf v st' f h)

/-- Witness for `github_cache_ignores_kind`: a `Tag`-kind fetch stores
`["v1"]`; the subsequent `Branch`-kind call at the same key returns `["v1"]`
from the cache even though its branch fetcher would return `["branch"]`. -/
theorem github_cache_ignores_kind_witness :
    tags_inner (constFetch ["v1"]) (constFetch ["b"]) (GithubState.mk []) "o" "p" 0 .Tag
      = (.ok ["v1"], (GithubState.mk [(("o", "p"), [(0, ["v1"])])]), 1)
    ∧ tags_inner (constFetch ["other"]) (constFetch ["branch"])
        (GithubState.mk [(("o", "p"), [(0, ["v1"])])]) "o" "p" 0 .Branch
      = (.ok ["v1"], (GithubState.mk [(("o", "p"), [(0, ["v1"])])]), 0) :=
  ⟨by rfl,
   github_cache_ignores_kind (constFetch ["v1"]) (constFetch ["b"])
     (constFetch ["other"]) (constFetch ["branch"]) (GithubState.mk []) "o" "p" 0 .Tag .Branch
     ["v1"] (GithubState.mk [(("o", "p"), [(0, ["v1"])])]) 1 (by rfl)⟩

/-! ### `docker_file.rs` theorems — the final merge stage -/

/-- Claim C5: for every feature and previous layer, `installation_layers`
(when it succeeds) returns a non-empty layer list whose last layer is named
`lowercase("{prev}-{name}-{version}-final")`, and with zero steps the result
is exactly that one final merge stage. -/
theorem installation_layers_final_stage :
    ∀ (pm : String) (inst : InstallationConfig) (prev : String) (layers : List DFLayer),
      installation_layers pm inst prev = .ok layers →
      layers ≠ []
      ∧ (layers.getLast?).map DFLayer.name
          = some (toLowerStr (prev ++ "-" ++ inst.name ++ "-" ++ inst.version ++ "-final"))
      ∧ (inst.steps = [] →
          layers = [⟨toLowerStr (prev ++ "-" ++ inst.name ++ "-" ++ inst.version ++ "-final"),
            [DLine.fromAs prev
              (toLowerStr (prev ++ "-" ++ inst.name ++ "-" ++ inst.version ++ "-final"))],
            []⟩]) := by
  intro pm inst prev layers h
  unfold installation_layers at h
  cases haux : installationLayersAux pm
      (toLowerStr (prev ++ "-" ++ inst.name ++ "-" ++ inst.version ++ "-final"))
      inst.steps 0 prev prev [] with
  | error e =>
    rw [haux] at h
    exact absurd h (by simp)
  | ok res =>
    rw [haux] at h
    injection h with h
    subst h
    refine ⟨by simp, ?_, ?_⟩
    · rw [List.getLast?_concat]
      rfl
    · intro hsteps
      rw [hsteps] at haux
      unfold installationLayersAux at haux
      injection haux with haux
      subst haux
      simp [DFLayer.extend, copyLines]

/-- Witness for `installation_layers_final_stage`: a zero-step feature still
produces its final merge stage. -/
theorem installation_layers_final_stage_witness :
    installation_layers "pm" (InstallationConfig.mk "g" "2" [] none) "base"
      = .ok [DFLayer.mk "base-g-2-final" [DLine.fromAs "base" "base-g-2-final"] []]
    ∧ ([DFLayer.mk "base-g-2-final" [DLine.fromAs "base" "base-g-2-final"] []] :
        List DFLayer) ≠ [] :=
  ⟨by rfl,
   (installation_layers_final_stage "pm" (InstallationConfig.mk "g" "2" [] none) "base"
     [DFLayer.mk "base-g-2-final" [DLine.fromAs "base" "base-g-2-final"] []] (by rfl)).1⟩

/-! ### `update.rs` theorems — build expansion counting -/

/-- A successful `collect` has as many values as there were results. -/
theorem collectE_length {α : Type} :
    ∀ (es : List (Except String α)) (r : List α), collectE es = .ok r → r.length = es.length := by
  intro es
  induction es with
  | nil =>
    intro r h
    unfold collectE at h
    injection h with h
    subst h
    rfl
  | cons e es ih =>
    intro r h
    unfold collectE at h
    cases e with
    | error err => exact absurd h (by simp)
    | ok a =>
      cases hrest : collectE es with
      | error err => rw [hrest] at h; exact absurd h (by simp)
      | ok rest =>
        rw [hrest] at h
        injection h with h
        subst h
        simp [ih rest hrest]

/-- The length of a `flatMap` whose pieces all have the same length. -/
theorem flatMap_const_length {α β : Type} :
    ∀ (xs : List α) (f : α → List β) (n : Nat), (∀ x, (f x).length = n) →
      (xs.flatMap f).length = xs.length * n := by
  intro xs f n hf
  induction xs with
  | nil => simp
  | cons x xs ih =>
    simp only [List.flatMap_cons, List.length_append, List.length_cons, ih, hf x]
    ring

/-- The number of combinations of the Cartesian product is the product of the
axis sizes (with the empty product contributing exactly one combination). -/
theorem multiCartesianProduct_length {α : Type} :
    ∀ ls : List (List α),
      (multiCartesianProduct ls).length = (ls.map List.length).prod := by
  intro ls
  induction ls with
  | nil => rfl
  | cons xs rest ih =>
    rw [multiCartesianProduct]
    rw [flatMap_const_length xs _ (multiCartesianProduct rest).length
      (fun x => by simp)]
    simp [ih]

/-- The length of a `flatMap` in general: the sum of the piece lengths. -/
theorem length_flatMap_sum {α β : Type} :
    ∀ (l : List α) (f : α → List β),
      (l.flatMap f).length = (l.map (fun a => (f a).length)).sum := by
  intro l f
  induction l with
  | nil => rfl
  | cons x xs ih => simp [List.flatMap_cons, ih]

/-- Claim C3: when `individual_builds` succeeds, the number of `SingleBuild`s
is `Σ_builds |expanded bases| × Π_i |expanded feature-group-i|`; in
particular a build request with one base version and zero feature groups
(scenario S1) yields exactly one `SingleBuild`, with `target = ""` when no
tags are set. -/
theorem individual_builds_count :
    (∀ (cfg : TuxWranglerConfig)
        (render_name : String → SingleVersioned → List SingleVersioned →
          Except String String)
        (bc : List (SingleVersioned × BaseConfig))
        (fc : List (SingleVersioned × InstallationConfig))
        (builds : List SingleBuild),
      individual_builds cfg render_name bc fc = .ok builds →
      builds.length =
        (cfg.builds.map (fun build =>
          (build.bases.flatMap (expandDefs (base_versions cfg))).length *
          (build.features.map (fun fs =>
            (fs.flatMap (expandDefs (feature_versions cfg))).length)).prod)).sum)
    ∧ individual_builds s1_config render_id s1_base_configs [] =
        .ok [⟨⟨"a", "1.0"⟩, [], "", "n", "t"⟩] := by
  constructor
  · intro cfg render_name bc fc builds h
    unfold individual_builds at h
    rw [collectE_length _ _ h, length_flatMap_sum]
    congr 1
    apply List.map_congr_left
    intro build _
    rw [List.length_map]
    rw [flatMap_const_length _ _
      (multiCartesianProduct (build.features.map (fun feature_set =>
        feature_set.flatMap (expandDefs (feature_versions cfg))))).length
      (fun b => by simp)]
    rw [multiCartesianProduct_length, List.map_map]
    rfl
  · rfl

/-- Witness for `individual_builds_count`: the scenario-S1 config yields one
build, matching the count formula. -/
theorem individual_builds_count_witness :
    [SingleBuild.mk (SingleVersioned.mk "a" "1.0") [] "" "n" "t"].length =
      (s1_config.builds.map (fun build =>
        (build.bases.flatMap (expandDefs (base_versions s1_config))).length *
        (build.features.map (fun fs =>
          (fs.flatMap (expandDefs (feature_versions s1_config))).length)).prod)).sum :=
  individual_builds_count.1 s1_config render_id s1_base_configs []
    [SingleBuild.mk (SingleVersioned.mk "a" "1.0") [] "" "n" "t"] (by rfl)

/-! ### `docker_file.rs` theorems — the cross-stage copy invariant (C4)

The argument: inside one `installation_layers` result, each step's `COPY`
lines refer only to names of *earlier* step layers of the same feature
(that is `layersChainOk`); appending such a chain to a build file whose
emitted stage names are all already defined keeps the invariant, in both
modes — in aggregated mode the dedup set `layer_names` only ever contains
names that an earlier emitted line defines.
-/

theorem definedAcc_cons (d : List String) (l : DLine) (ls : List DLine) :
    definedAcc d (l :: ls)
      = definedAcc (match lineDefines l with
          | some n => n :: d
          | none => d) ls := rfl

theorem definedAcc_append (d : List String) (xs ys : List DLine) :
    definedAcc d (xs ++ ys) = definedAcc (definedAcc d xs) ys := by
  simp [definedAcc, List.foldl_append]

/-- Scanning lines only adds names. -/
theorem subset_definedAcc :
    ∀ (ls : List DLine) (d : List String) (x : String), x ∈ d → x ∈ definedAcc d ls := by
  intro ls
  induction ls with
  | nil => intro d x hx; exact hx
  | cons l ls ih =>
    intro d x hx
    rw [definedAcc_cons]
    cases hdef : lineDefines l with
    | some n => exact ih _ x (List.mem_cons_of_mem n hx)
    | none => exact ih _ x hx

/-- `definedAcc` is monotone in the starting set. -/
theorem definedAcc_mono :
    ∀ (ls : List DLine) (d d' : List String), (∀ x ∈ d, x ∈ d') →
      ∀ x ∈ definedAcc d ls, x ∈ definedAcc d' ls := by
  intro ls
  induction ls with
  | nil => intro d d' h x hx; exact h x hx
  | cons l ls ih =>
    intro d d' h x hx
    rw [definedAcc_cons] at hx ⊢
    cases hdef : lineDefines l with
    | some n =>
      rw [hdef] at hx
      refine ih _ _ ?_ x hx
      intro y hy
      rcases List.mem_cons.mp hy with h1 | h1
      · exact h1 ▸ List.mem_cons_self n d'
      · exact List.mem_cons_of_mem n (h y h1)
    | none =>
      rw [hdef] at hx
      exact ih _ _ h x hx

theorem copyOkAux_append :
    ∀ (xs ys : List DLine) (d : List String),
      copyOkAux d (xs ++ ys) = (copyOkAux d xs && copyOkAux (definedAcc d xs) ys) := by
  intro xs
  induction xs with
  | nil => intro ys d; simp [copyOkAux, definedAcc]
  | cons l xs ih =>
    intro ys d
    cases l with
    | copyFrom layer src dest =>
      simp only [List.cons_append, copyOkAux, List.append_eq, ih, definedAcc_cons,
        lineDefines, Bool.and_assoc]
    | fromAs src n =>
      simp only [List.cons_append, copyOkAux, List.append_eq, ih, definedAcc_cons,
        lineDefines]
    | baseFrom r idf n =>
      simp only [List.cons_append, copyOkAux, List.append_eq, ih, definedAcc_cons,
        lineDefines]
    | raw s =>
      simp only [List.cons_append, copyOkAux, List.append_eq, ih, definedAcc_cons,
        lineDefines]
    | run s =>
      simp only [List.cons_append, copyOkAux, List.append_eq, ih, definedAcc_cons,
        lineDefines]

/-- The copy check is monotone in the defined set. -/
theorem copyOkAux_mono :
    ∀ (ls : List DLine) (d d' : List String), (∀ x ∈ d, x ∈ d') →
      copyOkAux d ls = true → copyOkAux d' ls = true := by
  intro ls
  induction ls with
  | nil => intro d d' _ _; rfl
  | cons l ls ih =>
    intro d d' h hok
    cases l with
    | copyFrom layer src dest =>
      simp only [copyOkAux, Bool.and_eq_true, decide_eq_true_eq] at hok ⊢
      exact ⟨h layer hok.1, ih d d' h hok.2⟩
    | fromAs src n =>
      simp only [copyOkAux] at hok ⊢
      refine ih _ _ ?_ hok
      intro y hy
      rcases List.mem_cons.mp hy with h1 | h1
      · exact h1 ▸ List.mem_cons_self n d'
      · exact List.mem_cons_of_mem n (h y h1)
    | baseFrom r idf n =>
      simp only [copyOkAux] at hok ⊢
      refine ih _ _ ?_ hok
      intro y hy
      rcases List.mem_cons.mp hy with h1 | h1
      · exact h1 ▸ List.mem_cons_self n d'
      · exact List.mem_cons_of_mem n (h y h1)
    | raw s =>
      simp only [copyOkAux] at hok ⊢
      exact ih d d' h hok
    | run s =>
      simp only [copyOkAux] at hok ⊢
      exact ih d d' h hok

theorem copyOkAux_copyMap (d : List String) (k : String) (m : List (String × String))
    (hk : k ∈ d) :
    copyOkAux d (m.map (fun sd => DLine.copyFrom k sd.1 sd.2)) = true := by
  induction m with
  | nil => rfl
  | cons sd m ih => simp [copyOkAux, hk, ih]

theorem definedAcc_copyMap (d : List String) (k : String) (m : List (String × String)) :
    definedAcc d (m.map (fun sd => DLine.copyFrom k sd.1 sd.2)) = d := by
  induction m with
  | nil => rfl
  | cons sd m ih => simpa [definedAcc_cons, lineDefines] using ih

theorem copyOkAux_copyLines (d : List String)
    (copies : List (String × List (String × String)))
    (h : ∀ e ∈ copies, e.1 ∈ d) :
    copyOkAux d (copyLines copies) = true := by
  induction copies with
  | nil => rfl
  | cons e rest ih =>
    rw [copyLines, List.flatMap_cons, copyOkAux_append]
    rw [copyOkAux_copyMap d e.1 e.2 (h e (List.mem_cons_self e rest))]
    rw [definedAcc_copyMap]
    rw [Bool.true_and]
    exact ih (fun x hx => h x (List.mem_cons_of_mem e hx))

theorem definedAcc_copyLines (d : List String)
    (copies : List (String × List (String × String))) :
    definedAcc d (copyLines copies) = d := by
  induction copies with
  | nil => rfl
  | cons e rest ih =>
    rw [copyLines, List.flatMap_cons, definedAcc_append, definedAcc_copyMap]
    exact ih

/-- Keys after a `HashMap::insert`: the new key or an old key. -/
theorem assocInsert_keys {κ ν : Type} [DecidableEq κ]
    (l : List (κ × ν)) (k : κ) (v : ν) :
    ∀ e ∈ assocInsert l k v, e.1 = k ∨ ∃ x ∈ l, e.1 = x.1 := by
  intro e he
  rw [assocInsert] at he
  split at he
  · rcases List.mem_map.mp he with ⟨x, hx, hfx⟩
    by_cases hxk : x.1 = k
    · rw [if_pos hxk] at hfx
      left
      rw [← hfx]
    · rw [if_neg hxk] at hfx
      right
      exact ⟨x, hx, by rw [← hfx]⟩
  · rcases List.mem_append.mp he with h1 | h1
    · right
      exact ⟨e, h1, rfl⟩
    · left
      rcases List.mem_singleton.mp h1 with h2
      rw [h2]

/-- The lines generated by `installation_inner` contain no `COPY` and define
no stage names. -/
theorem installation_inner_lines (pm : String) (inst : Installation)
    (res : List DLine × List String)
    (h : installation_inner pm inst = .ok res) :
    ∀ d, copyOkAux d res.1 = true ∧ definedAcc d res.1 = d := by
  intro d
  cases inst with
  | Docker dc =>
    unfold installation_inner at h
    injection h with h
    subst h
    simp only [docker_installation]
    constructor
    · induction dc.commands with
      | nil => rfl
      | cons c cs ih => simpa [copyOkAux] using ih
    · induction dc.commands with
      | nil => rfl
      | cons c cs ih => simpa [definedAcc_cons, lineDefines] using ih
  | Rpm rc =>
    simp only [installation_inner] at h
    cases hf : assocFind rc.installation_methods pm with
    | none => rw [hf] at h; exact absurd h (by simp)
    | some m =>
      rw [hf] at h
      injection h with h
      subst h
      simp only [rpm_installation, run_command_line]
      by_cases hemp : m.script.isEmpty
      · rw [if_pos hemp]
        exact ⟨rfl, rfl⟩
      · rw [if_neg hemp]
        exact ⟨rfl, rfl⟩

theorem namesAcc_cons (d : List String) (l : DFLayer) (ls : List DFLayer) :
    namesAcc d (l :: ls) = namesAcc (l.name :: d) ls := rfl

theorem layersChainOk_append :
    ∀ (xs ys : List DFLayer) (d : List String),
      layersChainOk d (xs ++ ys)
        = (layersChainOk d xs && layersChainOk (namesAcc d xs) ys) := by
  intro xs
  induction xs with
  | nil =>
    intro ys d
    simp [layersChainOk, namesAcc]
  | cons l xs ih =>
    intro ys d
    simp only [List.cons_append, layersChainOk, List.append_eq, ih, namesAcc_cons,
      Bool.and_assoc]

theorem layersChainOk_mono :
    ∀ (ls : List DFLayer) (d d' : List String), (∀ x ∈ d, x ∈ d') →
      layersChainOk d ls = true → layersChainOk d' ls = true := by
  intro ls
  induction ls with
  | nil => intro d d' _ _; rfl
  | cons l ls ih =>
    intro d d' h hok
    simp only [layersChainOk, Bool.and_eq_true, decide_eq_true_eq] at hok ⊢
    refine ⟨⟨copyOkAux_mono _ _ _ h hok.1.1, definedAcc_mono _ _ _ h _ hok.1.2⟩, ?_⟩
    refine ih _ _ ?_ hok.2
    intro y hy
    rcases List.mem_cons.mp hy with h1 | h1
    · exact h1 ▸ List.mem_cons_self l.name d'
    · exact List.mem_cons_of_mem l.name (h y h1)

/-- The lines of one step layer: the copies refer only to the given keys, and
the layer's own name is introduced by its `FROM` line. -/
theorem stepLayer_props (d : List String) (src nm : String)
    (copies : List (String × List (String × String)))
    (inner : List DLine × List String) (pm : String) (inst : Installation)
    (hkeys : ∀ e ∈ copies, e.1 ∈ nm :: d)
    (hinner : installation_inner pm inst = .ok inner) :
    copyOkAux d ((((DFLayer.mk nm [DLine.fromAs src nm] []).extend
      (copyLines copies, [])).extend inner).lines) = true
    ∧ nm ∈ definedAcc d ((((DFLayer.mk nm [DLine.fromAs src nm] []).extend
      (copyLines copies, [])).extend inner).lines) := by
  have hlines : (((DFLayer.mk nm [DLine.fromAs src nm] []).extend
      (copyLines copies, [])).extend inner).lines
      = ([DLine.fromAs src nm] ++ copyLines copies) ++ inner.1 := by
    simp [DFLayer.extend]
  rw [hlines]
  have hd1 : definedAcc d [DLine.fromAs src nm] = nm :: d := rfl
  have hinner' := installation_inner_lines pm inst inner hinner
  constructor
  · rw [copyOkAux_append, copyOkAux_append, hd1]
    have h1 : copyOkAux d [DLine.fromAs src nm] = true := rfl
    rw [h1, copyOkAux_copyLines _ _ hkeys, definedAcc_append, hd1, definedAcc_copyLines,
      (hinner' (nm :: d)).1]
    rfl
  · rw [definedAcc_append, definedAcc_append, hd1, definedAcc_copyLines,
      (hinner' (nm :: d)).2]
    exact List.mem_cons_self nm d

/-- The step loop of `installation_layers` produces a well-chained layer list
whose final `copies` table mentions only names of produced layers (or of the
initially-given keys). -/
theorem installationLayersAux_chain (pm fln : String) :
    ∀ (steps : List LockLayer) (i : Nat) (eph bld : String)
      (copies : List (String × List (String × String)))
      (layers : List DFLayer) (bp : String)
      (cs : List (String × List (String × String))) (d : List String),
      (∀ e ∈ copies, e.1 ∈ d) →
      installationLayersAux pm fln steps i eph bld copies = .ok (layers, bp, cs) →
      layersChainOk d layers = true ∧ ∀ e ∈ cs, e.1 ∈ namesAcc d layers := by
  intro steps
  induction steps with
  | nil =>
    intro i eph bld copies layers bp cs d hkeys h
    unfold installationLayersAux at h
    injection h with h
    have hl : ([] : List DFLayer) = layers := congrArg Prod.fst h
    have hcs : copies = cs := congrArg (fun t => t.2.2) h
    subst hl
    subst hcs
    exact ⟨rfl, hkeys⟩
  | cons step rest ih =>
    intro i eph bld copies layers bp cs d hkeys h
    simp only [installationLayersAux] at h
    cases hinner : installation_inner pm step.installation with
    | error e =>
      rw [hinner] at h
      exact absurd h (by simp)
    | ok inner =>
      rw [hinner] at h
      by_cases hlt : step.layer_type = LayerType.Actual
      · rw [if_pos hlt] at h
        dsimp only at h
        cases haux2 : installationLayersAux pm fln rest (i + 1) eph
            (fln ++ "-build-" ++ toString i)
            (assocInsert copies (fln ++ "-build-" ++ toString i) step.copy) with
        | error e =>
          rw [haux2] at h
          exact absurd h (by simp)
        | ok res =>
          rw [haux2] at h
          injection h with h
          have hcs : res.2.2 = cs := congrArg (fun t => t.2.2) h
          subst hcs
          simp only [Prod.mk.injEq, and_true] at h
          rw [← h.1]
          have hkeys' : ∀ e ∈ assocInsert copies (fln ++ "-build-" ++ toString i) step.copy,
              e.1 ∈ (fln ++ "-build-" ++ toString i) :: d := by
            intro e he
            rcases assocInsert_keys copies (fln ++ "-build-" ++ toString i) step.copy e he
              with h1 | ⟨x, hx, h1⟩
            · exact h1 ▸ List.mem_cons_self _ _
            · exact List.mem_cons_of_mem _ (h1 ▸ hkeys x hx)
          have hrec := ih (i + 1) eph (fln ++ "-build-" ++ toString i)
            (assocInsert copies (fln ++ "-build-" ++ toString i) step.copy)
            res.1 res.2.1 res.2.2 ((fln ++ "-build-" ++ toString i) :: d) hkeys' haux2
          have hstep := stepLayer_props d bld (fln ++ "-build-" ++ toString i) copies inner
            pm step.installation (fun e he => List.mem_cons_of_mem _ (hkeys e he)) hinner
          constructor
          · simp only [layersChainOk, Bool.and_eq_true, decide_eq_true_eq]
            exact ⟨⟨hstep.1, hstep.2⟩, hrec.1⟩
          · intro e he
            rw [namesAcc_cons]
            exact hrec.2 e he
      · rw [if_neg hlt] at h
        dsimp only at h
        cases haux2 : installationLayersAux pm fln rest (i + 1)
            (fln ++ "-build-" ++ toString i) bld
            (assocInsert copies (fln ++ "-build-" ++ toString i) step.copy) with
        | error e =>
          rw [haux2] at h
          exact absurd h (by simp)
        | ok res =>
          rw [haux2] at h
          injection h with h
          have hcs : res.2.2 = cs := congrArg (fun t => t.2.2) h
          subst hcs
          simp only [Prod.mk.injEq, and_true] at h
          rw [← h.1]
          have hkeys' : ∀ e ∈ assocInsert copies (fln ++ "-build-" ++ toString i) step.copy,
              e.1 ∈ (fln ++ "-build-" ++ toString i) :: d := by
            intro e he
            rcases assocInsert_keys copies (fln ++ "-build-" ++ toString i) step.copy e he
              with h1 | ⟨x, hx, h1⟩
            · exact h1 ▸ List.mem_cons_self _ _
            · exact List.mem_cons_of_mem _ (h1 ▸ hkeys x hx)
          have hrec := ih (i + 1) (fln ++ "-build-" ++ toString i) bld
            (assocInsert copies (fln ++ "-build-" ++ toString i) step.copy)
            res.1 res.2.1 res.2.2 ((fln ++ "-build-" ++ toString i) :: d) hkeys' haux2
          have hstep := stepLayer_props d eph (fln ++ "-build-" ++ toString i) copies inner
            pm step.installation (fun e he => List.mem_cons_of_mem _ (hkeys e he)) hinner
          constructor
          · simp only [layersChainOk, Bool.and_eq_true, decide_eq_true_eq]
            exact ⟨⟨hstep.1, hstep.2⟩, hrec.1⟩
          · intro e he
            rw [namesAcc_cons]
            exact hrec.2 e he

/-- An `installation_layers` result is a well-chained layer list relative to
any ambient defined set: its copies refer only to its own earlier layers. -/
theorem installation_layers_chain (pm : String) (inst : InstallationConfig)
    (prev : String) (layers : List DFLayer)
    (h : installation_layers pm inst prev = .ok layers) :
    ∀ d, layersChainOk d layers = true := by
  intro d
  unfold installation_layers at h
  cases haux : installationLayersAux pm
      (toLowerStr (prev ++ "-" ++ inst.name ++ "-" ++ inst.version ++ "-final"))
      inst.steps 0 prev prev [] with
  | error e =>
    rw [haux] at h
    exact absurd h (by simp)
  | ok res =>
    rw [haux] at h
    injection h with h
    subst h
    have hchain := installationLayersAux_chain pm
      (toLowerStr (prev ++ "-" ++ inst.name ++ "-" ++ inst.version ++ "-final"))
      inst.steps 0 prev prev [] res.1 res.2.1 res.2.2 d (by intro e he; cases he) haux
    rw [layersChainOk_append, hchain.1, Bool.true_and]
    have hfl : ((DFLayer.mk
        (toLowerStr (prev ++ "-" ++ inst.name ++ "-" ++ inst.version ++ "-final"))
        [DLine.fromAs res.2.1
          (toLowerStr (prev ++ "-" ++ inst.name ++ "-" ++ inst.version ++ "-final"))]
        []).extend (copyLines res.2.2, [])).lines
        = [DLine.fromAs res.2.1
            (toLowerStr (prev ++ "-" ++ inst.name ++ "-" ++ inst.version ++ "-final"))]
          ++ copyLines res.2.2 := by
      simp [DFLayer.extend]
    simp only [layersChainOk, hfl, Bool.and_true]
    have hd1 : definedAcc (namesAcc d res.1)
        [DLine.fromAs res.2.1
          (toLowerStr (prev ++ "-" ++ inst.name ++ "-" ++ inst.version ++ "-final"))]
        = toLowerStr (prev ++ "-" ++ inst.name ++ "-" ++ inst.version ++ "-final")
          :: namesAcc d res.1 := rfl
    rw [copyOkAux_append, hd1]
    have hcl : copyOkAux
        (toLowerStr (prev ++ "-" ++ inst.name ++ "-" ++ inst.version ++ "-final")
          :: namesAcc d res.1) (copyLines res.2.2) = true := by
      apply copyOkAux_copyLines
      intro e he
      exact List.mem_cons_of_mem _ (hchain.2 e he)
    rw [hcl]
    have : copyOkAux (namesAcc d res.1)
        [DLine.fromAs res.2.1
          (toLowerStr (prev ++ "-" ++ inst.name ++ "-" ++ inst.version ++ "-final"))]
        = true := rfl
    rw [this, Bool.true_and, Bool.true_and]
    rw [definedAcc_append, hd1, definedAcc_copyLines]
    simp [DFLayer.extend]

/-- Concatenating the lines of a well-chained layer list keeps every copy
reference justified. -/
theorem copyOkAux_concat_layers :
    ∀ (ls : List DFLayer) (d : List String), layersChainOk d ls = true →
      copyOkAux d (ls.flatMap (fun l => l.lines)) = true := by
  intro ls
  induction ls with
  | nil => intro d _; rfl
  | cons l ls ih =>
    intro d h
    simp only [layersChainOk, Bool.and_eq_true, decide_eq_true_eq] at h
    rw [List.flatMap_cons, copyOkAux_append, h.1.1, Bool.true_and]
    refine copyOkAux_mono _ _ _ ?_ (ih (l.name :: d) h.2)
    intro y hy
    rcases List.mem_cons.mp hy with h1 | h1
    · exact h1 ▸ h.1.2
    · exact subset_definedAcc _ _ _ h1

/-- An invariant preserved by every step of a fallible fold is preserved by
the whole fold. -/
theorem foldLoopE_inv {σ α : Type} (P : σ → Prop) (f : σ → α → Except String σ)
    (hstep : ∀ s x s', P s → f s x = .ok s' → P s') :
    ∀ (l : List α) (s s' : σ), foldLoopE f s l = .ok s' → P s → P s' := by
  intro l
  induction l with
  | nil =>
    intro s s' h hP
    unfold foldLoopE at h
    injection h with h
    exact h ▸ hP
  | cons x xs ih =>
    intro s s' h hP
    unfold foldLoopE at h
    cases hf : f s x with
    | error e => rw [hf] at h; exact absurd h (by simp)
    | ok s1 => rw [hf] at h; exact ih s1 s' h (hstep s x s1 hP hf)

/-- Single-target mode preserves the copy invariant through the feature
loop. -/
theorem create_dockerfile_for_copyOk (cfg : TuxWranglerConfigLocked)
    (b : SingleVersioned) (fs : List SingleVersioned)
    (out : List DLine × List String)
    (h : create_dockerfile_for cfg b fs = .ok out) :
    copyOkB out.1 = true := by
  unfold create_dockerfile_for at h
  cases hb : cfg.base b with
  | none => rw [hb] at h; exact absurd h (by simp)
  | some bconf =>
    rw [hb] at h
    cases hpm : cfg.package_manager_for_base b with
    | none => rw [hpm] at h; exact absurd h (by simp)
    | some pm =>
      rw [hpm] at h
      dsimp only at h
      split at h
      · exact absurd h (by simp)
      · rename_i st hfold
        injection h with h
        subst h
        have hstep : ∀ (s : String × List DLine × List String) (x : SingleVersioned) s',
            copyOkAux [] s.2.1 = true →
            (match cfg.feature x with
             | none =>
               Except.error ("Feature " ++ x.name ++ "-" ++ x.version
                 ++ " is missing from configuration")
             | some fc =>
               match installation_layers pm fc s.1 with
               | .error e => .error e
               | .ok feature_layers =>
                 match feature_layers.getLast? with
                 | none => Except.error "Feature did not create any layers"
                 | some last =>
                   Except.ok (last.name, s.2.1 ++ feature_layers.flatMap (fun l => l.lines),
                     depsExtend s.2.2 (feature_layers.flatMap (fun l => l.dependencies))))
              = .ok s' →
            copyOkAux [] s'.2.1 = true := by
          intro s x s' hP hf
          cases hfeat : cfg.feature x with
          | none => rw [hfeat] at hf; exact absurd hf (by simp)
          | some fc =>
            rw [hfeat] at hf
            dsimp only at hf
            cases hil : installation_layers pm fc s.1 with
            | error e => rw [hil] at hf; exact absurd hf (by simp)
            | ok fls =>
              rw [hil] at hf
              dsimp only at hf
              cases hlast : fls.getLast? with
              | none => rw [hlast] at hf; exact absurd hf (by simp)
              | some last =>
                rw [hlast] at hf
                dsimp only at hf
                injection hf with hf
                subst hf
                dsimp only
                rw [copyOkAux_append, hP, Bool.true_and]
                exact copyOkAux_concat_layers fls _
                  (installation_layers_chain pm fc s.1 fls hil _)
        have hinv := foldLoopE_inv (fun s => copyOkAux [] s.2.1 = true) _ hstep fs
          ((base_layer bconf).name, (base_layer bconf).lines, []) st hfold (by rfl)
        exact hinv

theorem seen_insert_mem {seen : List String} {n : String} (h : n ∈ seen) :
    seen_insert seen n = (false, seen) := by
  simp [seen_insert, h]

theorem seen_insert_new {seen : List String} {n : String} (h : n ∉ seen) :
    seen_insert seen n = (true, seen ++ [n]) := by
  simp [seen_insert, h]

/-- Aggregated-mode emission of one feature's layers preserves the
invariant: lines satisfy the copy check, and every seen name is defined by
an emitted line. -/
theorem agg_fold_inv :
    ∀ (fls : List DFLayer) (dcur seen : List String) (lines : List DLine)
      (deps : List String),
      layersChainOk dcur fls = true →
      (∀ n ∈ dcur, n ∈ seen) →
      copyOkAux [] lines = true →
      (∀ n ∈ seen, n ∈ definedAcc [] lines) →
      copyOkAux [] (fls.foldl emitLayer (seen, lines, deps)).2.1 = true
      ∧ ∀ n ∈ (fls.foldl emitLayer (seen, lines, deps)).1,
          n ∈ definedAcc [] (fls.foldl emitLayer (seen, lines, deps)).2.1 := by
  intro fls
  induction fls with
  | nil =>
    intro dcur seen lines deps hchain hsub hok hseen
    exact ⟨hok, hseen⟩
  | cons l fls ih =>
    intro dcur seen lines deps hchain hsub hok hseen
    simp only [layersChainOk, Bool.and_eq_true, decide_eq_true_eq] at hchain
    rw [List.foldl_cons]
    by_cases hm : l.name ∈ seen
    · have hemit : emitLayer (seen, lines, deps) l = (seen, lines, deps) := by
        simp [emitLayer, seen_insert, hm]
      rw [hemit]
      refine ih (l.name :: dcur) seen lines deps hchain.2 ?_ hok hseen
      intro n hn
      rcases List.mem_cons.mp hn with h1 | h1
      · exact h1 ▸ hm
      · exact hsub n h1
    · have hemit : emitLayer (seen, lines, deps) l
          = (seen ++ [l.name], lines ++ l.lines, depsExtend deps l.dependencies) := by
        simp [emitLayer, seen_insert, hm]
      rw [hemit]
      have hok' : copyOkAux [] (lines ++ l.lines) = true := by
        rw [copyOkAux_append, hok, Bool.true_and]
        exact copyOkAux_mono _ dcur _ (fun x hx => hseen x (hsub x hx)) hchain.1.1
      have hseen' : ∀ n ∈ seen ++ [l.name], n ∈ definedAcc [] (lines ++ l.lines) := by
        intro n hn
        rw [definedAcc_append]
        rcases List.mem_append.mp hn with h1 | h1
        · exact subset_definedAcc _ _ _ (hseen n h1)
        · have h2 := List.mem_singleton.mp h1
          exact h2 ▸ definedAcc_mono l.lines dcur _
            (fun x hx => hseen x (hsub x hx)) _ hchain.1.2
      refine ih (l.name :: dcur) (seen ++ [l.name]) (lines ++ l.lines)
        (depsExtend deps l.dependencies) hchain.2 ?_ hok' hseen'
      intro n hn
      rcases List.mem_cons.mp hn with h1 | h1
      · exact h1 ▸ List.mem_append.mpr (Or.inr (List.mem_singleton.mpr rfl))
      · exact List.mem_append.mpr (Or.inl (hsub n h1))

/-- Aggregated mode preserves the copy invariant across whole builds. -/
theorem create_dockerfile_copyOk (cfg : TuxWranglerConfigLocked)
    (out : List DLine × List String)
    (h : create_dockerfile cfg = .ok out) :
    copyOkB out.1 = true := by
  unfold create_dockerfile at h
  split at h
  · exact absurd h (by simp)
  · rename_i st hfold
    injection h with h
    subst h
    have hstep : ∀ (s : List String × List DLine × List String) (build : SingleBuild) s',
        (copyOkAux [] s.2.1 = true ∧ ∀ n ∈ s.1, n ∈ definedAcc [] s.2.1) →
        (match cfg.base build.base with
         | none =>
           Except.error ("Base " ++ build.base.name ++ "-" ++ build.base.version
             ++ " is missing from configuration")
         | some b =>
           let bl := base_layer b
           let ins := seen_insert s.1 bl.name
           let layers0 := if ins.1 then s.2.1 ++ bl.lines else s.2.1
           match cfg.package_manager_for_base build.base with
           | none =>
             Except.error ("Base " ++ build.base.name ++ "-" ++ build.base.version
               ++ " is missing a package manager")
           | some package_manager =>
             match foldLoopE
               (fun (acc2 : String × List String × List DLine × List String) feature =>
                 match cfg.feature feature with
                 | none =>
                   Except.error ("Feature " ++ feature.name ++ "-" ++ feature.version
                     ++ " is missing from configuration")
                 | some fc =>
                   match installation_layers package_manager fc acc2.1 with
                   | .error e => .error e
                   | .ok feature_layers =>
                     match feature_layers.getLast? with
                     | none => Except.error "Feature did not create any layers"
                     | some last =>
                       Except.ok (last.name, feature_layers.foldl emitLayer
                         (acc2.2.1, acc2.2.2.1, acc2.2.2.2)))
               ((bl.name, ins.2, layers0, s.2.2) :
                 String × List String × List DLine × List String) build.features with
             | .error e => .error e
             | .ok st2 =>
               let insT := seen_insert st2.2.1 build.target
               Except.ok
                 ((insT.2,
                   if insT.1 then st2.2.2.1 ++ tag_layer st2.1 build.target else st2.2.2.1,
                   st2.2.2.2) : List String × List DLine × List String)) = .ok s' →
        (copyOkAux [] s'.2.1 = true ∧ ∀ n ∈ s'.1, n ∈ definedAcc [] s'.2.1) := by
      intro s build s' hP hf
      cases hb : cfg.base build.base with
      | none => rw [hb] at hf; exact absurd hf (by simp)
      | some bconf =>
        rw [hb] at hf
        dsimp only at hf
        cases hpm : cfg.package_manager_for_base build.base with
        | none => rw [hpm] at hf; exact absurd hf (by simp)
        | some pm =>
          rw [hpm] at hf
          dsimp only at hf
          -- the invariant holds of the state entering the feature loop
          have hinit : copyOkAux []
              (if (seen_insert s.1 (base_layer bconf).name).1
                then s.2.1 ++ (base_layer bconf).lines else s.2.1) = true
              ∧ ∀ n ∈ (seen_insert s.1 (base_layer bconf).name).2,
                  n ∈ definedAcc []
                    (if (seen_insert s.1 (base_layer bconf).name).1
                      then s.2.1 ++ (base_layer bconf).lines else s.2.1) := by
            by_cases hbm : (base_layer bconf).name ∈ s.1
            · rw [seen_insert_mem hbm]
              show copyOkAux [] s.2.1 = true ∧ ∀ n ∈ s.1, n ∈ definedAcc [] s.2.1
              exact hP
            · rw [seen_insert_new hbm]
              show copyOkAux [] (s.2.1 ++ (base_layer bconf).lines) = true
                ∧ ∀ n ∈ s.1 ++ [(base_layer bconf).name],
                    n ∈ definedAcc [] (s.2.1 ++ (base_layer bconf).lines)
              constructor
              · rw [copyOkAux_append, hP.1, Bool.true_and]
                rfl
              · intro n hn
                rw [definedAcc_append]
                rcases List.mem_append.mp hn with h1 | h1
                · exact subset_definedAcc _ _ _ (hP.2 n h1)
                · have h2 := List.mem_singleton.mp h1
                  exact h2 ▸ List.mem_cons_self _ _
          split at hf
          · exact absurd hf (by simp)
          · rename_i st2 hfold2
            have hstep2 : ∀ (s2 : String × List String × List DLine × List String)
                (feature : SingleVersioned) s2',
                (copyOkAux [] s2.2.2.1 = true
                  ∧ ∀ n ∈ s2.2.1, n ∈ definedAcc [] s2.2.2.1) →
                (match cfg.feature feature with
                 | none =>
                   Except.error ("Feature " ++ feature.name ++ "-" ++ feature.version
                     ++ " is missing from configuration")
                 | some fc =>
                   match installation_layers pm fc s2.1 with
                   | .error e => .error e
                   | .ok feature_layers =>
                     match feature_layers.getLast? with
                     | none => Except.error "Feature did not create any layers"
                     | some last =>
                       Except.ok (last.name, feature_layers.foldl emitLayer
                         (s2.2.1, s2.2.2.1, s2.2.2.2))) = .ok s2' →
                (copyOkAux [] s2'.2.2.1 = true
                  ∧ ∀ n ∈ s2'.2.1, n ∈ definedAcc [] s2'.2.2.1) := by
              intro s2 feature s2' hQ hf2
              cases hfeat : cfg.feature feature with
              | none => rw [hfeat] at hf2; exact absurd hf2 (by simp)
              | some fc =>
                rw [hfeat] at hf2
                dsimp only at hf2
                cases hil : installation_layers pm fc s2.1 with
                | error e => rw [hil] at hf2; exact absurd hf2 (by simp)
                | ok fls =>
                  rw [hil] at hf2
                  dsimp only at hf2
                  cases hlast : fls.getLast? with
                  | none => rw [hlast] at hf2; exact absurd hf2 (by simp)
                  | some last =>
                    rw [hlast] at hf2
                    dsimp only at hf2
                    injection hf2 with hf2
                    subst hf2
                    dsimp only
                    exact agg_fold_inv fls [] s2.2.1 s2.2.2.1 s2.2.2.2
                      (installation_layers_chain pm fc s2.1 fls hil [])
                      (by intro n hn; cases hn) hQ.1 hQ.2
            have hQ2 := foldLoopE_inv
              (fun s2 : String × List String × List DLine × List String =>
                copyOkAux [] s2.2.2.1 = true
                  ∧ ∀ n ∈ s2.2.1, n ∈ definedAcc [] s2.2.2.1)
              _ hstep2 build.features _ st2 hfold2 hinit
            injection hf with hf
            subst hf
            by_cases ht : build.target ∈ st2.2.1
            · rw [seen_insert_mem ht]
              show copyOkAux [] st2.2.2.1 = true
                ∧ ∀ n ∈ st2.2.1, n ∈ definedAcc [] st2.2.2.1
              exact hQ2
            · rw [seen_insert_new ht]
              show copyOkAux [] (st2.2.2.1 ++ tag_layer st2.1 build.target) = true
                ∧ ∀ n ∈ st2.2.1 ++ [build.target],
                    n ∈ definedAcc [] (st2.2.2.1 ++ tag_layer st2.1 build.target)
              constructor
              · rw [copyOkAux_append, hQ2.1, Bool.true_and]
                rfl
              · intro n hn
                rw [definedAcc_append]
                rcases List.mem_append.mp hn with h1 | h1
                · exact subset_definedAcc _ _ _ (hQ2.2 n h1)
                · have h2 := List.mem_singleton.mp h1
                  exact h2 ▸ List.mem_cons_self _ _
    exact (foldLoopE_inv
      (fun s : List String × List DLine × List String =>
        copyOkAux [] s.2.1 = true ∧ ∀ n ∈ s.1, n ∈ definedAcc [] s.2.1)
      _ hstep cfg.builds ([], [], []) st hfold ⟨rfl, by intro n hn; cases hn⟩).1

/-- Claim C4: in every build file produced by the synthesizer — aggregated
mode (`create_dockerfile`) and single-target mode (`create_dockerfile_for`)
— every `COPY --from=X` line is preceded by a `FROM … as X` line in the
emitted line sequence. -/
theorem dockerfile_copy_sources_precede :
    (∀ (cfg : TuxWranglerConfigLocked) (out : List DLine × List String),
      create_dockerfile cfg = .ok out → copyOkB out.1 = true)
    ∧ (∀ (cfg : TuxWranglerConfigLocked) (b : SingleVersioned)
        (fs : List SingleVersioned) (out : List DLine × List String),
      create_dockerfile_for cfg b fs = .ok out → copyOkB out.1 = true) :=
  ⟨fun cfg out h => create_dockerfile_copyOk cfg out h,
   fun cfg b fs out h => create_dockerfile_for_copyOk cfg b fs out h⟩

/-- Witness for `dockerfile_copy_sources_precede`: the S4-style lock in both
modes; every emitted `COPY --from` refers to an earlier stage. -/
theorem dockerfile_copy_sources_precede_witness :
    copyOkB [DLine.baseFrom "a" (ImageIdentifier.Tag "1.0") "temp",
      DLine.fromAs "temp" "temp-f-1-final-build-0",
      DLine.raw "RUN make",
      DLine.fromAs "temp" "temp-f-1-final-build-1",
      DLine.copyFrom "temp-f-1-final-build-0" "/out" "/in",
      DLine.raw "RUN use",
      DLine.fromAs "temp-f-1-final-build-1" "temp-f-1-final",
      DLine.copyFrom "temp-f-1-final-build-0" "/out" "/in",
      DLine.fromAs "temp-f-1-final" "tgt"] = true
    ∧ copyOkB [DLine.baseFrom "a" (ImageIdentifier.Tag "1.0") "temp",
      DLine.fromAs "temp" "temp-f-1-final-build-0",
      DLine.raw "RUN make",
      DLine.fromAs "temp" "temp-f-1-final-build-1",
      DLine.copyFrom "temp-f-1-final-build-0" "/out" "/in",
      DLine.raw "RUN use",
      DLine.fromAs "temp-f-1-final-build-1" "temp-f-1-final",
      DLine.copyFrom "temp-f-1-final-build-0" "/out" "/in"] = true :=
  ⟨dockerfile_copy_sources_precede.1 s4_lock
    ([DLine.baseFrom "a" (ImageIdentifier.Tag "1.0") "temp",
      DLine.fromAs "temp" "temp-f-1-final-build-0",
      DLine.raw "RUN make",
      DLine.fromAs "temp" "temp-f-1-final-build-1",
      DLine.copyFrom "temp-f-1-final-build-0" "/out" "/in",
      DLine.raw "RUN use",
      DLine.fromAs "temp-f-1-final-build-1" "temp-f-1-final",
      DLine.copyFrom "temp-f-1-final-build-0" "/out" "/in",
      DLine.fromAs "temp-f-1-final" "tgt"], []) (by rfl),
   dockerfile_copy_sources_precede.2 s4_lock ⟨"a", "1.0"⟩ [⟨"f", "1"⟩]
    ([DLine.baseFrom "a" (ImageIdentifier.Tag "1.0") "temp",
      DLine.fromAs "temp" "temp-f-1-final-build-0",
      DLine.raw "RUN make",
      DLine.fromAs "temp" "temp-f-1-final-build-1",
      DLine.copyFrom "temp-f-1-final-build-0" "/out" "/in",
      DLine.raw "RUN use",
      DLine.fromAs "temp-f-1-final-build-1" "temp-f-1-final",
      DLine.copyFrom "temp-f-1-final-build-0" "/out" "/in"], []) (by rfl)⟩

end TuxWrangler
